import Mathlib

/-!
Shallow embedding of the pr-manager reviewer-assignment engine.

The Go sources embedded here:
  * internal/models (pull_request.go, user.go, stats.go): the data model;
  * internal/domain/errors.go: the sentinel error kinds;
  * internal/repository (pr_repo.go, user_team_repo.go): the storage layer,
    modelled as pure updates of an explicit `RepoState` record.  SQL row sets
    are unordered, so the `List` order of a table in `RepoState` is a model
    artifact; `ORDER BY` clauses of read queries are not modelled (they only
    permute results, and every property proved below is insensitive to that
    order).  `ON CONFLICT DO UPDATE` upserts are modelled as
    remove-then-append, which is row-set-equivalent.  Transactions abort as a
    whole, so a failing storage operation returns the unchanged state;
  * internal/service (the UserManager, from the service sources): the
    in-memory reviewer directory.  A Go map is modelled as an association
    list whose element order stands for the (arbitrary) map iteration order;
    map assignment is modelled as remove-then-append;
  * the PullRequestManager (CreatePullRequest / Merge / Reassign /
    BulkDeactivateTeamMembers and their helpers, including the
    `reviewerPool` round-robin queue).  Fire-and-forget
    `go SetActivity(...)` side effects are not scheduled; each operation
    records the dispatches it makes in an `activityUpdates` field.
    Wall-clock timestamps are passed in as a `now : Nat` parameter.
-/

namespace PRManager

/-- Status of a pull request (models.PullRequestStatus): OPEN or MERGED. -/
inductive PullRequestStatus
  | OPEN
  | MERGED
deriving DecidableEq

/-- models.PullRequest.  Timestamps (`*time.Time`) are modelled as `Option Nat`. -/
structure PullRequest where
  assignedReviewers : List String
  authorId : String
  createdAt : Option Nat
  mergedAt : Option Nat
  pullRequestId : String
  pullRequestName : String
  status : PullRequestStatus
deriving DecidableEq

/-- models.User. -/
structure User where
  isActive : Bool
  teamName : String
  userId : String
  username : String
deriving DecidableEq

/-- models.TeamMember. -/
structure TeamMember where
  isActive : Bool
  userId : String
  username : String
deriving DecidableEq

/-- models.Team. -/
structure Team where
  members : List TeamMember
  teamName : String
deriving DecidableEq

/-- models.ReviewerSwap. -/
structure ReviewerSwap where
  pullRequestId : String
  oldUserId : String
  newUserId : String
deriving DecidableEq

/-- models.ReviewerReplacement. -/
structure ReviewerReplacement where
  oldUserId : String
  newUserId : String
deriving DecidableEq

/-- models.TeamPRReassignment. -/
structure TeamPRReassignment where
  pullRequestId : String
  replacements : List ReviewerReplacement
deriving DecidableEq

/-- models.TeamBulkDeactivateResult. -/
structure TeamBulkDeactivateResult where
  teamName : String
  deactivated : List String
  reassignments : List TeamPRReassignment
deriving DecidableEq

/-- models.PostPullRequestCreateJSONBody. -/
structure PostPullRequestCreateJSONBody where
  authorId : String
  pullRequestId : String
  pullRequestName : String
deriving DecidableEq

/-- domain.ReassignResponse. -/
structure ReassignResponse where
  pr : PullRequest
  replacedBy : String
deriving DecidableEq

/-- Error kinds.  The constructors up to `unauthorized` are the sentinel
errors of internal/domain/errors.go, carrying the context string the
`New...Error` helpers format in.  `invalidPayload` is the spec's
"InvalidPayload" error kind (the code's closest counterpart is the
INVALID_PAYLOAD HTTP error code of the web layer); it is included so that
claims about that kind are statable.  `generic` models an untyped
`fmt.Errorf` error that wraps no sentinel, carrying its message. -/
inductive DomainError
  | teamExists (teamName : String)
  | prExists (prId : String)
  | prMerged (prId : String)
  | notAssigned (prId : String)
  | noCandidate (prId : String)
  | notFound (resource : String)
  | unauthorized (action : String)
  | invalidPayload
  | generic (msg : String)
deriving DecidableEq

/-- Does `errors.Is(err, domain.ErrNotFound)` hold?  Wrapping with
`fmt.Errorf("...: %w", err)` preserves the sentinel, so only the kind is
tested. -/
def DomainError.isNotFound : DomainError → Bool
  | .notFound _ => true
  | _ => false

/-- Does `errors.Is(err, domain.ErrNoCandidate)` hold? -/
def DomainError.isNoCandidate : DomainError → Bool
  | .noCandidate _ => true
  | _ => false

/-- Leading-and-trailing whitespace trim on a character list. -/
def trimChars (l : List Char) : List Char :=
  ((l.dropWhile Char.isWhitespace).reverse.dropWhile Char.isWhitespace).reverse

/-- Models Go strings.TrimSpace.  (Lean's own String.trim is equivalent but
is defined through byte-position arithmetic that the kernel cannot reduce,
so the trim is performed on the character list instead.) -/
def trimSpace (s : String) : String :=
  ⟨trimChars s.data⟩

/-- A row of the users table.  team_name is nullable (the SaveUser insert
passes NULLIF(team_name, '')), hence `Option String`. -/
structure DbUser where
  userId : String
  username : String
  isActive : Bool
  teamName : Option String
deriving DecidableEq

/-- The persistent store: the three tables the engine touches.  A
pull_requests row and its pull_request_reviewers rows are kept together in
one `PullRequest` value. -/
structure RepoState where
  teams : List String
  users : List DbUser
  prs : List PullRequest
deriving DecidableEq

/-- Conversion used by Storage.SaveUser / CreateTeamWithMembers: a
models.User becomes a users-table row, with NULLIF(team_name, ''). -/
def dbUserOfUser (u : User) : DbUser :=
  { userId := u.userId, username := u.username, isActive := u.isActive,
    teamName := if u.teamName = "" then none else some u.teamName }

/-- SQL upsert on the users table (`ON CONFLICT (user_id) DO UPDATE`),
modelled as remove-then-append; row order in a table is immaterial. -/
def upsertDbUser (rows : List DbUser) (u : DbUser) : List DbUser :=
  rows.filter (fun v => v.userId ≠ u.userId) ++ [u]

/-- SQL upsert on the pull_requests table (`ON CONFLICT (pull_request_id)
DO UPDATE`), modelled as remove-then-append. -/
def upsertPR (rows : List PullRequest) (pr : PullRequest) : List PullRequest :=
  rows.filter (fun q => q.pullRequestId ≠ pr.pullRequestId) ++ [pr]

/-- The reviewer-insert loop of Storage.SavePullRequest: empty ids are
skipped and ids already seen are skipped (the `seen` map). -/
def insertReviewersLoop : List String → List String → List String
  | [], _ => []
  | r :: rest, seen =>
    if r = "" then insertReviewersLoop rest seen
    else if r ∈ seen then insertReviewersLoop rest seen
    else r :: insertReviewersLoop rest (r :: seen)

/-- Storage.SavePullRequest: validates at most 2 reviewers, then in one
transaction upserts the PR row, deletes the old reviewer rows and inserts
the (deduplicated, empty-skipping) new ones. -/
def Storage.SavePullRequest (st : RepoState) (pr : PullRequest) :
    Except DomainError RepoState :=
  if pr.assignedReviewers.length > 2 then
    .error (.generic "assigned reviewers count must be <= 2")
  else
    let stored := { pr with assignedReviewers := insertReviewersLoop pr.assignedReviewers [] }
    .ok { st with prs := upsertPR st.prs stored }

/-- Storage.GetPullRequest: the PR row with its reviewer rows, or NotFound. -/
def Storage.GetPullRequest (st : RepoState) (prID : String) :
    Except DomainError PullRequest :=
  match st.prs.find? (fun q => q.pullRequestId == prID) with
  | some pr => .ok pr
  | none => .error (.notFound ("pull request " ++ prID))

/-- Storage.FindOpenPullRequestsByReviewers: all OPEN PRs whose reviewer set
contains at least one of the given (non-empty) ids.  The Go function first
deduplicates and drops empty ids, which only affects the ANY($1) set, i.e.
nothing; `ORDER BY created_at DESC` is not modelled. -/
def Storage.FindOpenPullRequestsByReviewers (st : RepoState)
    (reviewerIDs : List String) : List PullRequest :=
  st.prs.filter (fun pr => pr.status == .OPEN &&
    pr.assignedReviewers.any (fun r => r ≠ "" && reviewerIDs.contains r))

/-- One reviewer swap inside the bulk transaction: DELETE the (pr, old)
reviewer row, INSERT the (pr, new) one. -/
def applySwapToPR (pr : PullRequest) (swap : ReviewerSwap) : PullRequest :=
  if pr.pullRequestId = swap.pullRequestId then
    { pr with assignedReviewers :=
        (pr.assignedReviewers.filter (fun r => r ≠ swap.oldUserId)) ++ [swap.newUserId] }
  else pr

/-- Storage.applyReviewerSwapsTx: the swaps applied in order. -/
def applyReviewerSwaps (prs : List PullRequest) (swaps : List ReviewerSwap) :
    List PullRequest :=
  swaps.foldl (fun cur swap => cur.map (fun pr => applySwapToPR pr swap)) prs

/-- Storage.deactivateUsersTx: is_active := false for every listed id (the
Go function deduplicates and skips empty ids first, which does not change
the row set affected). -/
def deactivateUsers (rows : List DbUser) (ids : List String) : List DbUser :=
  rows.map (fun u => if u.userId ≠ "" ∧ u.userId ∈ ids then
    { u with isActive := false } else u)

/-- Storage.ApplyBulkTeamReviewerSwaps: one transaction combining the swap
tuples and the deactivation list.  A malformed swap aborts the transaction
mid-way; since the transaction rolls back as a whole, that is modelled as an
up-front check returning the unchanged state. -/
def Storage.ApplyBulkTeamReviewerSwaps (st : RepoState)
    (swaps : List ReviewerSwap) (usersToDeactivate : List String) :
    Except DomainError RepoState :=
  if swaps.isEmpty && usersToDeactivate.isEmpty then .ok st
  else if swaps.any (fun s =>
      s.pullRequestId = "" || s.oldUserId = "" || s.newUserId = "") then
    .error (.generic "invalid reviewer swap payload")
  else
    .ok { st with prs := applyReviewerSwaps st.prs swaps,
                  users := deactivateUsers st.users usersToDeactivate }

/-- Storage.SaveUser: upsert of one users-table row. -/
def Storage.SaveUser (st : RepoState) (user : User) : RepoState :=
  { st with users := upsertDbUser st.users (dbUserOfUser user) }

/-- Storage.GetUser: the users-table row converted back to a models.User
(a NULL team_name reads back as ""). -/
def Storage.GetUser (st : RepoState) (userID : String) :
    Except DomainError User :=
  match st.users.find? (fun u => u.userId == userID) with
  | some u => .ok { isActive := u.isActive, userId := u.userId,
                    username := u.username, teamName := u.teamName.getD "" }
  | none => .error (.notFound ("user " ++ userID))

/-- Storage.GetAllUsersInTeam: the users-table rows of one team
(`ORDER BY username` is not modelled). -/
def Storage.GetAllUsersInTeam (st : RepoState) (teamId : String) :
    List DbUser :=
  st.users.filter (fun u => u.teamName == some teamId)

/-- repository.convertUserToTeamMember. -/
def convertRowToTeamMember (u : DbUser) : TeamMember :=
  { userId := u.userId, username := u.username, isActive := u.isActive }

/-- Storage.CreateTeamWithMembers: in one transaction, insert the team row
(AlreadyExists if the name is taken) and upsert every member row. -/
def Storage.CreateTeamWithMembers (st : RepoState) (team : Team)
    (users : List User) : Except DomainError RepoState :=
  if st.teams.contains team.teamName then
    .error (.teamExists team.teamName)
  else
    .ok { st with teams := st.teams ++ [team.teamName],
                  users := users.foldl
                    (fun acc u => upsertDbUser acc (dbUserOfUser u)) st.users }

/-- Storage.GetTeam: checks the teams table, then collects the team's user
rows as members. -/
def Storage.GetTeam (st : RepoState) (teamID : String) :
    Except DomainError Team :=
  if st.teams.contains teamID then
    .ok { teamName := teamID,
          members := (Storage.GetAllUsersInTeam st teamID).map convertRowToTeamMember }
  else
    .error (.notFound ("team " ++ teamID))

/-! The UserManager (reviewer directory).  Its state is the cache — an
association list of models.User values keyed by userId, list order playing
the role of Go's arbitrary map iteration order — plus an optional backing
store (`none` models a manager constructed with a nil repository). -/

/-- models.ConvertTmToUser. -/
def ConvertTmToUser (tm : TeamMember) (teamName : String) : User :=
  { isActive := tm.isActive, teamName := teamName,
    userId := tm.userId, username := tm.username }

/-- models.ConvertUserToTeamMember. -/
def ConvertUserToTeamMember (user : User) : TeamMember :=
  { isActive := user.isActive, userId := user.userId, username := user.username }

/-- Go map assignment `um.users[u.UserId] = u`, modelled as
remove-then-append on the association list. -/
def cacheUpsert (cache : List User) (u : User) : List User :=
  cache.filter (fun v => v.userId ≠ u.userId) ++ [u]

/-- The loop body of UserManager.AssignRewiers: collect active users of the
team, breaking once the counter reaches 2. -/
def assignRewiersLoop (teamId : String) : List User → Nat → List String
  | [], _ => []
  | user :: rest, counter =>
    if user.teamName = teamId ∧ user.isActive = true then
      if counter + 1 = 2 then [user.userId]
      else user.userId :: assignRewiersLoop teamId rest (counter + 1)
    else assignRewiersLoop teamId rest counter

/-- UserManager.AssignRewiers: up to two active cached users of the team,
in cache iteration order. -/
def UserManager.AssignRewiers (cache : List User) (teamId : String) :
    List String :=
  assignRewiersLoop teamId cache 0

/-- UserManager.SetActivity: sets the active flag of the listed users in
the cache; ids not cached are silently skipped; never errors. -/
def UserManager.SetActivity (cache : List User) (rewIds : List String)
    (status : Bool) : List User :=
  cache.map (fun u => if u.userId ∈ rewIds then
    { u with isActive := status } else u)

/-- UserManager.SyncUsersActivity: cache-only bulk activity update (the
early return on an empty id list has no separate effect). -/
def UserManager.SyncUsersActivity (cache : List User) (userIDs : List String)
    (isActive : Bool) : List User :=
  cache.map (fun u => if u.userId ∈ userIDs then
    { u with isActive := isActive } else u)

/-- UserManager.FindReplacementReviewer: first cached user (in iteration
order) of the team that is active and not excluded; bare NoCandidate
sentinel otherwise. -/
def UserManager.FindReplacementReviewer (cache : List User)
    (teamName : String) (excludeUserIDs : List String) :
    Except DomainError String :=
  match cache.find? (fun user => decide (user.teamName = teamName ∧
      user.isActive = true ∧ user.userId ∉ excludeUserIDs)) with
  | some user => .ok user.userId
  | none => .error (.noCandidate "")

/-- UserManager.GetUserTeam: cached team if present, else load the user
from the store, cache it, and return its team.  Returns the possibly grown
cache alongside the team name. -/
def UserManager.GetUserTeam (repoSt : Option RepoState) (cache : List User)
    (userID : String) : Except DomainError (String × List User) :=
  match cache.find? (fun u => u.userId == userID) with
  | some u => .ok (u.teamName, cache)
  | none =>
    match repoSt with
    | none => .error (.notFound "user")
    | some st =>
      match Storage.GetUser st userID with
      | .error e =>
        if e.isNotFound then .error (.notFound "user") else .error e
      | .ok user => .ok (user.teamName, cacheUpsert cache user)

/-- The member-validation loop of UserManager.AddTeam: first empty or
duplicate user id, if any. -/
def addTeamValidate : List TeamMember → List String → Option DomainError
  | [], _ => none
  | m :: rest, seen =>
    if m.userId = "" then some (.generic "empty user_id found in team members")
    else if m.userId ∈ seen then
      some (.generic ("duplicate user_id " ++ m.userId ++ " found in team members"))
    else addTeamValidate rest (m.userId :: seen)

/-- UserManager.AddTeam: validates member ids, persists team+members
atomically when a store is attached (a nil store only logs), and populates
the cache with the members only after the store write succeeded.  Returns
the new cache and store. -/
def UserManager.AddTeam (repoSt : Option RepoState) (cache : List User)
    (team : Team) : Except DomainError (List User × Option RepoState) :=
  match addTeamValidate team.members [] with
  | some e => .error e
  | none =>
    let users := team.members.map (fun m => ConvertTmToUser m team.teamName)
    match repoSt with
    | some st =>
      match Storage.CreateTeamWithMembers st team users with
      | .error e => .error e
      | .ok st' => .ok (users.foldl cacheUpsert cache, some st')
    | none => .ok (users.foldl cacheUpsert cache, none)

/-- The cache-fallback branch of UserManager.GetTeam: reconstruct the team
from all cached users whose team matches; NotFound if that set is empty. -/
def UserManager.getTeamFromCache (cache : List User) (teamName : String) :
    Except DomainError Team :=
  let members := (cache.filter (fun u => u.teamName = teamName)).map
    ConvertUserToTeamMember
  if members.isEmpty then .error (.notFound "team")
  else .ok { teamName := teamName, members := members }

/-- UserManager.GetTeam: prefers the store (source of truth); on the
store's NotFound — or with no store attached — falls back to the cache
reconstruction; a non-NotFound store error is surfaced. -/
def UserManager.GetTeam (repoSt : Option RepoState) (cache : List User)
    (teamName : String) : Except DomainError Team :=
  match repoSt with
  | some st =>
    match Storage.GetTeam st teamName with
    | .ok team => .ok team
    | .error e =>
      if e.isNotFound then UserManager.getTeamFromCache cache teamName
      else .error e
  | none => UserManager.getTeamFromCache cache teamName

deriving instance DecidableEq for Except

/-- Outcome of UserManager.SetUserActivity: the call result plus the state
(cache, store) the manager is left with. -/
structure SetUserActivityRun where
  res : Except DomainError User
  cache : List User
  repoSt : Option RepoState
deriving DecidableEq

/-- UserManager.SetUserActivity: NotFound if the user is not cached;
otherwise flip the cached flag and persist the user through the store
(`saveUser` injects the store write's externally determined outcome — the
honest store is `fun st u => .ok (Storage.SaveUser st u)`, a failing
connection is `fun _ _ => .error msg`).  On a store failure the cached flag
is rolled back, which in this pure model is returning the unchanged cache. -/
def UserManager.SetUserActivity
    (saveUser : RepoState → User → Except String RepoState)
    (repoSt : Option RepoState) (cache : List User)
    (userID : String) (isActive : Bool) : SetUserActivityRun :=
  match cache.find? (fun u => u.userId == userID) with
  | none => ⟨.error (.notFound "user"), cache, repoSt⟩
  | some user =>
    let updated := { user with isActive := isActive }
    match repoSt with
    | none => ⟨.ok updated, cacheUpsert cache updated, none⟩
    | some st =>
      match saveUser st updated with
      | .error msg => ⟨.error (.generic ("failed to save user: " ++ msg)), cache, some st⟩
      | .ok st' => ⟨.ok updated, cacheUpsert cache updated, some st'⟩

/-! The PullRequestManager. -/

/-- service.convertReqToModel (time.Now() passed in as `now`). -/
def convertReqToModel (now : Nat) (reqData : PostPullRequestCreateJSONBody) :
    PullRequest :=
  { assignedReviewers := [], authorId := reqData.authorId,
    createdAt := some now, mergedAt := none,
    pullRequestId := reqData.pullRequestId,
    pullRequestName := reqData.pullRequestName,
    status := .OPEN }

/-- Outcome of PullRequestManager.CreatePullRequest: result, store, cache,
and the fire-and-forget SetActivity dispatches (id list, flag). -/
structure CreateRun where
  res : Except DomainError PullRequest
  repo : RepoState
  cache : List User
  activityUpdates : List (List String × Bool)
deriving DecidableEq

/-- PullRequestManager.CreatePullRequest: resolve the author's team, pick
up to two reviewers, dispatch their deactivation, persist the PR. -/
def CreatePullRequest (repo : RepoState) (cache : List User) (now : Nat)
    (reqData : PostPullRequestCreateJSONBody) : CreateRun :=
  let pr := convertReqToModel now reqData
  match UserManager.GetUserTeam (some repo) cache pr.authorId with
  | .error e => ⟨.error e, repo, cache, []⟩
  | .ok (teamID, cache') =>
    let curAssignedReviewers := UserManager.AssignRewiers cache' teamID
    let pr' := { pr with assignedReviewers := curAssignedReviewers }
    match Storage.SavePullRequest repo pr' with
    | .error _ =>
      ⟨.error (.generic "couldnt add pr to DB"), repo, cache',
       [(curAssignedReviewers, false)]⟩
    | .ok repo' => ⟨.ok pr', repo', cache', [(curAssignedReviewers, false)]⟩

/-- Outcome of PullRequestManager.Merge: result, store, the PR passed to
SavePullRequest (if the save was reached), and the SetActivity dispatches. -/
structure MergeRun where
  res : Except DomainError PullRequest
  repo : RepoState
  savedPR : Option PullRequest
  activityUpdates : List (List String × Bool)
deriving DecidableEq

/-- PullRequestManager.Merge: load the PR (NotFound if absent); if already
MERGED return it unchanged; otherwise stamp status/time, persist, and
dispatch reviewer reactivation. -/
def Merge (repo : RepoState) (now : Nat) (pullRequestId : String) : MergeRun :=
  match Storage.GetPullRequest repo pullRequestId with
  | .error e =>
    if e.isNotFound then ⟨.error (.notFound "pull request"), repo, none, []⟩
    else ⟨.error e, repo, none, []⟩
  | .ok pr =>
    if pr.status = .MERGED then ⟨.ok pr, repo, none, []⟩
    else
      let merged := { pr with status := .MERGED, mergedAt := some now }
      match Storage.SavePullRequest repo merged with
      | .error _ =>
        ⟨.error (.generic "failed to save merged pull request"), repo, some merged, []⟩
      | .ok repo' =>
        ⟨.ok merged, repo', some merged,
         if merged.assignedReviewers.length > 0
         then [(merged.assignedReviewers, true)] else []⟩

/-- Outcome of PullRequestManager.Reassign. -/
structure ReassignRun where
  res : Except DomainError ReassignResponse
  repo : RepoState
  cache : List User
  activityUpdates : List (List String × Bool)
deriving DecidableEq

/-- PullRequestManager.Reassign: load the PR; reject MERGED PRs and
reviewers not assigned; find a same-team replacement excluding the current
reviewers and the departing one; swap it in; persist; dispatch the two
activity updates. -/
def Reassign (repo : RepoState) (cache : List User)
    (oldUserId prId : String) : ReassignRun :=
  match Storage.GetPullRequest repo prId with
  | .error e =>
    if e.isNotFound then ⟨.error (.notFound "pull request"), repo, cache, []⟩
    else ⟨.error e, repo, cache, []⟩
  | .ok pr =>
    if pr.status = .MERGED then ⟨.error (.prMerged prId), repo, cache, []⟩
    else if oldUserId ∉ pr.assignedReviewers then
      ⟨.error (.notAssigned prId), repo, cache, []⟩
    else
      match UserManager.GetUserTeam (some repo) cache oldUserId with
      | .error e => ⟨.error e, repo, cache, []⟩
      | .ok (teamName, cache') =>
        let excludeUserIDs := pr.assignedReviewers ++ [oldUserId]
        match UserManager.FindReplacementReviewer cache' teamName excludeUserIDs with
        | .error e =>
          if e.isNoCandidate then ⟨.error (.noCandidate prId), repo, cache', []⟩
          else ⟨.error e, repo, cache', []⟩
        | .ok newReviewerID =>
          let newAssignedReviewers :=
            (pr.assignedReviewers.filter (fun r => r ≠ oldUserId)) ++ [newReviewerID]
          let pr' := { pr with assignedReviewers := newAssignedReviewers }
          match Storage.SavePullRequest repo pr' with
          | .error _ =>
            ⟨.error (.generic "failed to save reassigned pull request"), repo, cache', []⟩
          | .ok repo' =>
            ⟨.ok { pr := pr', replacedBy := newReviewerID }, repo', cache',
             [([oldUserId], true), ([newReviewerID], false)]⟩

/-! The bulk-deactivation helpers of the PullRequestManager. -/

/-- service.normalizeTargetUserIDs's loop: trim each id, drop empties,
deduplicate via the `seen` set, keeping first occurrences in order. -/
def normalizeLoop : List String → List String → List String
  | [], _ => []
  | raw :: rest, seen =>
    let id := trimSpace raw
    if id = "" then normalizeLoop rest seen
    else if id ∈ seen then normalizeLoop rest seen
    else id :: normalizeLoop rest (id :: seen)

/-- service.normalizeTargetUserIDs.  (The Go function also returns the
targets as a set; that set holds exactly the returned list's elements, so
callers' set-membership tests are modelled as list membership.) -/
def normalizeTargetUserIDs (userIDs : List String) :
    Except DomainError (List String) :=
  let targets := normalizeLoop userIDs []
  if targets.isEmpty then .error (.generic "no valid user ids provided")
  else .ok targets

/-- service.ensureTargetsInTeam: NotFound on the first target that is not a
team member. -/
def ensureTargetsInTeam (targets : List String) (members : List TeamMember) :
    Except DomainError Unit :=
  match targets.find? (fun id => !(members.any (fun m => m.userId == id))) with
  | some id => .error (.notFound ("user " ++ id))
  | none => .ok ()

/-- service.collectReplacementCandidates: active team members outside the
target set, in membership order. -/
def collectReplacementCandidates (members : List TeamMember)
    (targetSet : List String) : List String :=
  (members.filter (fun m => !(targetSet.contains m.userId) && m.isActive)).map
    (fun m => m.userId)

/-- service.reviewerPool: the round-robin queue of drawable candidates plus
the set of ids still available (modelled as the list of its elements). -/
structure reviewerPool where
  queue : List String
  available : List String
deriving DecidableEq

/-- The queue-construction loop of service.newReviewerPool: skip empty and
already-present ids. -/
def newReviewerPoolQueue : List String → List String → List String
  | [], _ => []
  | id :: rest, seen =>
    if id = "" then newReviewerPoolQueue rest seen
    else if id ∈ seen then newReviewerPoolQueue rest seen
    else id :: newReviewerPoolQueue rest (id :: seen)

/-- service.newReviewerPool: queue and availability set hold the same
(deduplicated, non-empty) ids. -/
def newReviewerPool (ids : List String) : reviewerPool :=
  let queue := newReviewerPoolQueue ids []
  ⟨queue, queue⟩

/-- The loop of reviewerPool.take, fuelled by the initial queue length
(`attempts`).  Pops the head; skips it if no longer available; sends it to
the back of the queue if excluded; otherwise takes it, removing it from
availability.  Returns the drawn id (if any) with the final queue and
availability list. -/
def takeLoop : Nat → List String → List String → List String →
    Option String × List String × List String
  | 0, queue, available, _ => (none, queue, available)
  | _ + 1, [], available, _ => (none, [], available)
  | attempts + 1, candidate :: rest, available, exclude =>
    if candidate ∉ available then
      takeLoop attempts rest available exclude
    else if candidate ∈ exclude then
      takeLoop attempts (rest ++ [candidate]) available exclude
    else (some candidate, rest, available.erase candidate)

/-- service.reviewerPool.take. -/
def reviewerPool.take (p : reviewerPool) (exclude : List String) :
    Option String × reviewerPool :=
  if p.available = [] then (none, p)
  else
    let r := takeLoop p.queue.length p.queue p.available exclude
    (r.1, ⟨r.2.1, r.2.2⟩)

/-- The inner loop of service.planBulkReviewerSwaps over one PR's reviewer
list: for every targeted reviewer draw a replacement from the pool that is
not in `assigned` (the PR's current reviewers plus replacements already
drawn for it), threading pool and assigned-set.  Returns the PR's
(old, new) replacement pairs; swaps and drawn-replacement ids accumulate
these same pairs, so they are derived from the result by the caller. -/
def planPRLoop (targetSet : List String) (prId : String) :
    List String → List String → reviewerPool →
    Except DomainError (List ReviewerReplacement × List String × reviewerPool)
  | [], assigned, pool => .ok ([], assigned, pool)
  | reviewer :: rest, assigned, pool =>
    if reviewer ∉ targetSet then
      planPRLoop targetSet prId rest assigned pool
    else
      match pool.take assigned with
      | (none, _) => .error (.noCandidate prId)
      | (some newReviewer, pool') =>
        match planPRLoop targetSet prId rest (newReviewer :: assigned) pool' with
        | .error e => .error e
        | .ok (reps, assignedF, poolF) =>
          .ok ({ oldUserId := reviewer, newUserId := newReviewer } :: reps,
               assignedF, poolF)

/-- The outer loop of service.planBulkReviewerSwaps over the open PRs:
plans each PR against the threaded pool and accumulates the swap list, the
per-PR reassignment report (a PR appears only when it got replacements) and
the drawn replacement ids. -/
def planLoop (targetSet : List String) :
    List PullRequest → reviewerPool →
    Except DomainError
      (List ReviewerSwap × List TeamPRReassignment × List String × reviewerPool)
  | [], pool => .ok ([], [], [], pool)
  | pr :: rest, pool =>
    match planPRLoop targetSet pr.pullRequestId pr.assignedReviewers
        pr.assignedReviewers pool with
    | .error e => .error e
    | .ok (reps, _, pool') =>
      match planLoop targetSet rest pool' with
      | .error e => .error e
      | .ok (swaps, reassignments, replacementIDs, poolF) =>
        .ok ((reps.map (fun rep =>
                { pullRequestId := pr.pullRequestId,
                  oldUserId := rep.oldUserId,
                  newUserId := rep.newUserId })) ++ swaps,
             (if reps.isEmpty then reassignments
              else { pullRequestId := pr.pullRequestId,
                     replacements := reps } :: reassignments),
             (reps.map (fun rep => rep.newUserId)) ++ replacementIDs,
             poolF)

/-- service.planBulkReviewerSwaps: query the open PRs that involve a
target, then run the planning loops. -/
def planBulkReviewerSwaps (repo : RepoState) (targets targetSet : List String)
    (pool : reviewerPool) :
    Except DomainError
      (List ReviewerSwap × List TeamPRReassignment × List String × reviewerPool) :=
  planLoop targetSet (Storage.FindOpenPullRequestsByReviewers repo targets) pool

/-- Outcome of PullRequestManager.BulkDeactivateTeamMembers: the call
result, the store and cache the system is left with, and — when the
planning phase completed — the exact arguments handed to the single
ApplyBulkTeamReviewerSwaps persistence call. -/
structure BulkRun where
  res : Except DomainError TeamBulkDeactivateResult
  repo : RepoState
  cache : List User
  applyCall : Option (List ReviewerSwap × List String)
deriving DecidableEq

/-- PullRequestManager.BulkDeactivateTeamMembers: normalize the targets,
load the team, check membership, build the candidate pool, plan all swaps,
then apply swaps plus the deactivation list (original targets plus every
drawn replacement) in one transaction, and finally sync the cache's
activity flags. -/
def BulkDeactivateTeamMembers (repo : RepoState) (cache : List User)
    (teamName : String) (userIDs : List String) : BulkRun :=
  let tn := trimSpace teamName
  if tn = "" then ⟨.error (.generic "team name is required"), repo, cache, none⟩
  else if userIDs.isEmpty then
    ⟨.error (.generic "no user ids provided"), repo, cache, none⟩
  else
    match normalizeTargetUserIDs userIDs with
    | .error e => ⟨.error e, repo, cache, none⟩
    | .ok targets =>
      match UserManager.GetTeam (some repo) cache tn with
      | .error e => ⟨.error e, repo, cache, none⟩
      | .ok team =>
        match ensureTargetsInTeam targets team.members with
        | .error e => ⟨.error e, repo, cache, none⟩
        | .ok _ =>
          let candidateIDs := collectReplacementCandidates team.members targets
          let pool := newReviewerPool candidateIDs
          match planBulkReviewerSwaps repo targets targets pool with
          | .error e => ⟨.error e, repo, cache, none⟩
          | .ok (swaps, reassignments, replacementIDs, _) =>
            let usersToDeactivate := targets ++ replacementIDs
            match Storage.ApplyBulkTeamReviewerSwaps repo swaps usersToDeactivate with
            | .error _ =>
              ⟨.error (.generic "bulk reviewer swap"), repo, cache,
               some (swaps, usersToDeactivate)⟩
            | .ok repo' =>
              let cache' := if usersToDeactivate.length > 0
                then UserManager.SyncUsersActivity cache usersToDeactivate false
                else cache
              ⟨.ok { teamName := tn, deactivated := targets,
                     reassignments := reassignments },
               repo', cache', some (swaps, usersToDeactivate)⟩

/-! Invariants and helper lemmas. -/

/-- The reviewer-set invariant the spec states for every PR: at most two
reviewers, no duplicate id. -/
def ReviewersInvariant (pr : PullRequest) : Prop :=
  pr.assignedReviewers.length ≤ 2 ∧ pr.assignedReviewers.Nodup

instance (pr : PullRequest) : Decidable (ReviewersInvariant pr) := by
  unfold ReviewersInvariant; infer_instance

/-- Wellformedness of a stored PR row set: reviewers are deduplicated,
capped at two and non-empty, as SavePullRequest guarantees on write. -/
def StoredPR (pr : PullRequest) : Prop :=
  pr.assignedReviewers.Nodup ∧ pr.assignedReviewers.length ≤ 2 ∧
    "" ∉ pr.assignedReviewers

instance (pr : PullRequest) : Decidable (StoredPR pr) := by
  unfold StoredPR; infer_instance

/-- Wellformedness of the store: pull_request_id is a primary key, and
every stored PR row set is wellformed. -/
def RepoWF (st : RepoState) : Prop :=
  (st.prs.map (fun pr => pr.pullRequestId)).Nodup ∧ ∀ pr ∈ st.prs, StoredPR pr

instance (st : RepoState) : Decidable (RepoWF st) := by
  unfold RepoWF; infer_instance

/-- Wellformedness of the directory cache: it models a map keyed by
userId, so the keys are distinct. -/
def CacheWF (cache : List User) : Prop :=
  (cache.map (fun u => u.userId)).Nodup

instance (cache : List User) : Decidable (CacheWF cache) := by
  unfold CacheWF; infer_instance

theorem find?_append_of_none {α : Type} (p : α → Bool) (l₁ l₂ : List α)
    (h : ∀ x ∈ l₁, p x = false) : (l₁ ++ l₂).find? p = l₂.find? p := by
  induction l₁ with
  | nil => rfl
  | cons a l ih =>
    have ha : p a = false := h a (List.mem_cons_self a l)
    simp only [List.cons_append, List.find?_cons, ha]
    exact ih (fun x hx => h x (List.mem_cons_of_mem a hx))

theorem mem_take_append {α : Type} (a : α) :
    ∀ (l l' : List α) (n : Nat), a ∈ l.take n → a ∈ (l ++ l').take n := by
  intro l
  induction l with
  | nil => intro l' n h; simp at h
  | cons x xs ih =>
    intro l' n h
    cases n with
    | zero => simp at h
    | succ m =>
      simp only [List.take_succ_cons, List.mem_cons] at h
      rcases h with h | h
      · simp [h]
      · simpa using Or.inr (ih l' m h)

theorem length_filter_ne_of_mem (a : String) :
    ∀ (l : List String), l.Nodup → a ∈ l →
    (l.filter (fun x => x ≠ a)).length + 1 = l.length := by
  intro l
  induction l with
  | nil => intro _ h; simp at h
  | cons x xs ih =>
    intro hnd hmem
    rcases List.nodup_cons.mp hnd with ⟨hx, hxs⟩
    by_cases hxa : x = a
    · subst hxa
      have hfix : xs.filter (fun y => y ≠ x) = xs := by
        apply List.filter_eq_self.mpr
        intro b hb
        simp only [ne_eq, decide_eq_true_eq]
        intro hbx; exact hx (hbx ▸ hb)
      rw [List.filter_cons, if_neg (by simp), hfix, List.length_cons]
    · have hmem' : a ∈ xs := by
        rcases List.mem_cons.mp hmem with h | h
        · exact absurd h (fun hh => hxa hh.symm)
        · exact h
      have hih := ih hxs hmem'
      rw [List.filter_cons, if_pos (by simp [hxa]), List.length_cons, List.length_cons]
      omega

theorem mem_filter_ne {a b : String} {l : List String} :
    a ∈ l.filter (fun x => x ≠ b) ↔ a ∈ l ∧ a ≠ b := by
  simp [List.mem_filter]

/-! C7: target-list normalization. -/

/-- Specification-side restatement of the normalization contract, for
comparison with `normalizeTargetUserIDs`: de-duplicate keeping the first
occurrence (given the ids already seen). -/
def dedupKeepFirst : List String → List String → List String
  | [], _ => []
  | x :: rest, seen =>
    if x ∈ seen then dedupKeepFirst rest seen
    else x :: dedupKeepFirst rest (x :: seen)

/-- Specification-side restatement of the normalization contract: trim
every id, drop the empties, and de-duplicate preserving first occurrence. -/
def specNormalizeTargets (userIDs : List String) : List String :=
  dedupKeepFirst ((userIDs.map trimSpace).filter (fun id => id ≠ "")) []

theorem normalizeLoop_eq_spec :
    ∀ (userIDs seen : List String),
    normalizeLoop userIDs seen
      = dedupKeepFirst ((userIDs.map trimSpace).filter (fun id => id ≠ "")) seen := by
  intro userIDs
  induction userIDs with
  | nil => intro seen; rfl
  | cons raw rest ih =>
    intro seen
    simp only [normalizeLoop, List.map_cons, List.filter_cons]
    by_cases hempty : trimSpace raw = ""
    · rw [if_pos hempty]
      rw [if_neg (show ¬(decide (trimSpace raw ≠ "") = true) by simp [hempty])]
      exact ih seen
    · rw [if_neg hempty]
      rw [if_pos (show decide (trimSpace raw ≠ "") = true by simp [hempty])]
      simp only [dedupKeepFirst]
      by_cases hseen : trimSpace raw ∈ seen
      · rw [if_pos hseen, if_pos hseen]
        exact ih seen
      · rw [if_neg hseen, if_neg hseen, ih (trimSpace raw :: seen)]

/-- C7, counterexample: with a whitespace-only target list the bulk
deactivation fails, but with the untyped error "no valid user ids
provided", not with the InvalidPayload error kind (the domain defines no
such kind, and the web error mapper reports this error as an internal
error). -/
theorem C7_counterexample :
    (BulkDeactivateTeamMembers ⟨[], [], []⟩ [] "T" [" ", ""]).res
        = .error (.generic "no valid user ids provided") ∧
    (BulkDeactivateTeamMembers ⟨[], [], []⟩ [] "T" [" ", ""]).res
        ≠ .error .invalidPayload := by
  constructor
  · rfl
  · decide

/-- C7 (amended): bulk deactivation first normalizes its target list by
trimming whitespace, dropping empty ids, and de-duplicating while
preserving first occurrence; if the normalized list is empty the operation
fails — with the plain error "no valid user ids provided" (no InvalidPayload
domain kind exists). -/
theorem C7_normalize_targets (userIDs : List String) :
    (specNormalizeTargets userIDs ≠ [] →
      normalizeTargetUserIDs userIDs = .ok (specNormalizeTargets userIDs)) ∧
    (specNormalizeTargets userIDs = [] →
      normalizeTargetUserIDs userIDs
        = .error (.generic "no valid user ids provided")) := by
  have hloop : normalizeLoop userIDs [] = specNormalizeTargets userIDs :=
    normalizeLoop_eq_spec userIDs []
  constructor
  · intro hne
    unfold normalizeTargetUserIDs
    rw [hloop, if_neg (by simpa [List.isEmpty_iff] using hne)]
  · intro he
    unfold normalizeTargetUserIDs
    rw [hloop, if_pos (by simpa [List.isEmpty_iff] using he)]

/-- C7 witness: the amended theorem evaluated on a concrete list with
whitespace, an empty id and a duplicate. -/
theorem C7_normalize_targets_witness :
    specNormalizeTargets ["  a ", "", "a", "b"] ≠ [] ∧
    normalizeTargetUserIDs ["  a ", "", "a", "b"]
      = .ok (specNormalizeTargets ["  a ", "", "a", "b"]) :=
  ⟨by decide, (C7_normalize_targets ["  a ", "", "a", "b"]).1 (by decide)⟩

/-! C5: the bulk-swap candidate pool. -/

/-- Wellformedness of a reviewer pool: the queue has no duplicates, the
availability list has no duplicates, and — since a candidate leaves the
queue exactly when it leaves availability — both hold the same ids. -/
def PoolInv (queue available : List String) : Prop :=
  queue.Nodup ∧ available.Nodup ∧
    (∀ x ∈ available, x ∈ queue) ∧ (∀ x ∈ queue, x ∈ available)

instance (q a : List String) : Decidable (PoolInv q a) := by
  unfold PoolInv; infer_instance

/-- Wellformedness of a reviewer pool, as a predicate on the structure. -/
def reviewerPool.WF (p : reviewerPool) : Prop :=
  PoolInv p.queue p.available

instance (p : reviewerPool) : Decidable p.WF := by
  unfold reviewerPool.WF; infer_instance

theorem newReviewerPoolQueue_mem :
    ∀ (ids seen : List String) (x : String), x ∈ newReviewerPoolQueue ids seen →
      x ∈ ids ∧ x ≠ "" ∧ x ∉ seen := by
  intro ids
  induction ids with
  | nil => intro seen x h; simp [newReviewerPoolQueue] at h
  | cons id rest ih =>
    intro seen x h
    simp only [newReviewerPoolQueue] at h
    by_cases h1 : id = ""
    · rw [if_pos h1] at h
      obtain ⟨hm, hne, hs⟩ := ih seen x h
      exact ⟨List.mem_cons_of_mem _ hm, hne, hs⟩
    · rw [if_neg h1] at h
      by_cases h2 : id ∈ seen
      · rw [if_pos h2] at h
        obtain ⟨hm, hne, hs⟩ := ih seen x h
        exact ⟨List.mem_cons_of_mem _ hm, hne, hs⟩
      · rw [if_neg h2] at h
        rcases List.mem_cons.mp h with h | h
        · subst h; exact ⟨List.mem_cons_self _ _, h1, h2⟩
        · obtain ⟨hm, hne, hs⟩ := ih (id :: seen) x h
          exact ⟨List.mem_cons_of_mem _ hm, hne,
            fun hx => hs (List.mem_cons_of_mem _ hx)⟩

theorem newReviewerPoolQueue_nodup :
    ∀ (ids seen : List String), (newReviewerPoolQueue ids seen).Nodup := by
  intro ids
  induction ids with
  | nil => intro seen; simp [newReviewerPoolQueue]
  | cons id rest ih =>
    intro seen
    simp only [newReviewerPoolQueue]
    by_cases h1 : id = ""
    · rw [if_pos h1]; exact ih seen
    · rw [if_neg h1]
      by_cases h2 : id ∈ seen
      · rw [if_pos h2]; exact ih seen
      · rw [if_neg h2]
        refine List.nodup_cons.mpr ⟨?_, ih (id :: seen)⟩
        intro hmem
        exact (newReviewerPoolQueue_mem rest (id :: seen) id hmem).2.2
          (List.mem_cons_self _ _)

theorem newReviewerPool_WF (ids : List String) : (newReviewerPool ids).WF := by
  have hnd := newReviewerPoolQueue_nodup ids []
  exact ⟨hnd, hnd, fun x hx => hx, fun x hx => hx⟩

theorem newReviewerPool_no_empty (ids : List String) :
    "" ∉ (newReviewerPool ids).available := by
  intro h
  exact (newReviewerPoolQueue_mem ids [] "" h).2.1 rfl

theorem newReviewerPool_available_sub (ids : List String) :
    ∀ x ∈ (newReviewerPool ids).available, x ∈ ids := by
  intro x h
  exact (newReviewerPoolQueue_mem ids [] x h).1

theorem takeLoop_none_of_all_excluded :
    ∀ (n : Nat) (queue available exclude : List String),
    (∀ a ∈ available, a ∈ exclude) →
    (takeLoop n queue available exclude).1 = none := by
  intro n
  induction n with
  | zero => intro queue available exclude _; rfl
  | succ m ih =>
    intro queue available exclude hall
    match queue with
    | [] => rfl
    | candidate :: rest =>
      simp only [takeLoop]
      by_cases hav : candidate ∈ available
      · rw [if_neg (by simpa using hav), if_pos (hall candidate hav)]
        exact ih _ _ _ hall
      · rw [if_pos hav]
        exact ih _ _ _ hall

theorem takeLoop_none_sound :
    ∀ (n : Nat) (queue available exclude q' a' : List String),
    takeLoop n queue available exclude = (none, q', a') →
    (∀ x ∈ queue.take n, x ∈ exclude ∨ x ∉ available) ∧ a' = available := by
  intro n
  induction n with
  | zero =>
    intro queue available exclude q' a' h
    simp only [takeLoop, Prod.mk.injEq] at h
    exact ⟨by simp, h.2.2.symm⟩
  | succ m ih =>
    intro queue available exclude q' a' h
    match queue with
    | [] =>
      simp only [takeLoop, Prod.mk.injEq] at h
      exact ⟨by simp, h.2.2.symm⟩
    | candidate :: rest =>
      simp only [takeLoop] at h
      by_cases hav : candidate ∈ available
      · rw [if_neg (by simpa using hav)] at h
        by_cases hex : candidate ∈ exclude
        · rw [if_pos hex] at h
          obtain ⟨hrec, ha⟩ := ih _ _ _ _ _ h
          refine ⟨?_, ha⟩
          intro x hx
          rcases List.mem_cons.mp (by simpa using hx) with hh | hh
          · exact Or.inl (hh ▸ hex)
          · exact hrec x (mem_take_append x rest [candidate] m hh)
        · rw [if_neg hex] at h
          simp at h
      · rw [if_pos hav] at h
        obtain ⟨hrec, ha⟩ := ih _ _ _ _ _ h
        refine ⟨?_, ha⟩
        intro x hx
        rcases List.mem_cons.mp (by simpa using hx) with hh | hh
        · exact Or.inr (hh ▸ hav)
        · exact hrec x hh

theorem takeLoop_some_sound :
    ∀ (n : Nat) (queue available exclude : List String) (c : String)
      (q' a' : List String),
    PoolInv queue available →
    takeLoop n queue available exclude = (some c, q', a') →
    c ∈ available ∧ c ∉ exclude ∧ a' = available.erase c ∧ PoolInv q' a' := by
  intro n
  induction n with
  | zero => intro queue available exclude c q' a' _ h; simp [takeLoop] at h
  | succ m ih =>
    intro queue available exclude c q' a' hinv h
    match queue with
    | [] => simp [takeLoop] at h
    | candidate :: rest =>
      obtain ⟨hqnd, hand, hak, hka⟩ := hinv
      have hcq : candidate ∈ available := hka candidate (List.mem_cons_self _ _)
      have hcrest : candidate ∉ rest := (List.nodup_cons.mp hqnd).1
      simp only [takeLoop] at h
      rw [if_neg (by simpa using hcq)] at h
      by_cases hex : candidate ∈ exclude
      · rw [if_pos hex] at h
        have hinv' : PoolInv (rest ++ [candidate]) available := by
          have hperm := List.perm_append_singleton candidate rest
          refine ⟨hperm.symm.nodup hqnd, hand, ?_, ?_⟩
          · intro x hx
            exact hperm.mem_iff.mpr (by simpa using hak x hx)
          · intro x hx
            exact hka x (by simpa using hperm.mem_iff.mp hx)
        exact ih _ _ _ _ _ _ hinv' h
      · rw [if_neg hex] at h
        simp only [Prod.mk.injEq, Option.some.injEq] at h
        obtain ⟨hc, hq, ha⟩ := h
        subst hc; subst hq; subst ha
        refine ⟨hcq, hex, rfl, ?_, ?_, ?_, ?_⟩
        · exact (List.nodup_cons.mp hqnd).2
        · exact hand.erase candidate
        · intro x hx
          obtain ⟨hne, hxa⟩ := (List.Nodup.mem_erase_iff hand).mp hx
          rcases List.mem_cons.mp (hak x hxa) with hh | hh
          · exact absurd hh hne
          · exact hh
        · intro x hx
          refine (List.Nodup.mem_erase_iff hand).mpr ⟨?_, hka x (List.mem_cons_of_mem _ hx)⟩
          intro hh; exact hcrest (hh ▸ hx)

theorem take_some_spec (p : reviewerPool) (exclude : List String) (c : String)
    (p' : reviewerPool) (hwf : p.WF)
    (h : p.take exclude = (some c, p')) :
    c ∈ p.available ∧ c ∉ exclude ∧ p'.available = p.available.erase c ∧ p'.WF := by
  unfold reviewerPool.take at h
  by_cases hae : p.available = []
  · rw [if_pos hae] at h; simp at h
  · rw [if_neg hae] at h
    rcases hr : takeLoop p.queue.length p.queue p.available exclude with ⟨ores, q', a'⟩
    rw [hr] at h
    simp only [Prod.mk.injEq] at h
    obtain ⟨hres, hp'⟩ := h
    subst hres
    obtain ⟨hc, hex, ha, hinv⟩ := takeLoop_some_sound _ _ _ _ _ _ _ hwf hr
    subst ha
    exact ⟨hc, hex, by rw [← hp'], by rw [← hp']; exact hinv⟩

theorem take_none_iff (p : reviewerPool) (exclude : List String) (hwf : p.WF) :
    (p.take exclude).1 = none ↔ ∀ x ∈ p.available, x ∈ exclude := by
  constructor
  · intro h
    unfold reviewerPool.take at h
    by_cases hae : p.available = []
    · intro x hx; rw [hae] at hx; simp at hx
    · rw [if_neg hae] at h
      rcases hr : takeLoop p.queue.length p.queue p.available exclude with ⟨ores, q', a'⟩
      rw [hr] at h
      simp only at h
      subst h
      obtain ⟨hall, _⟩ := takeLoop_none_sound _ _ _ _ _ _ hr
      intro x hx
      have hxq : x ∈ p.queue := hwf.2.2.1 x hx
      rcases hall x (by rw [List.take_length]; exact hxq) with hh | hh
      · exact hh
      · exact absurd hx hh
  · intro hall
    unfold reviewerPool.take
    by_cases hae : p.available = []
    · rw [if_pos hae]
    · rw [if_neg hae]
      exact takeLoop_none_of_all_excluded _ _ _ _ hall

/-- C5: the bulk-swap candidate pool behaves as a round-robin queue.
`newReviewerPool` builds a wellformed pool; a successful `take exclude`
returns an id that is still available (never one already taken) and not in
the exclusion set, removes exactly that id from availability (so a
candidate rejected only because it was excluded for this draw remains
drawable later), and preserves wellformedness; `take` fails exactly when
every still-available candidate is in the exclusion set. -/
theorem C5_pool_round_robin (ids : List String) (p : reviewerPool)
    (exclude : List String) (hwf : p.WF) :
    (newReviewerPool ids).WF ∧
    (∀ c p', p.take exclude = (some c, p') →
      c ∈ p.available ∧ c ∉ exclude ∧ p'.WF ∧ c ∉ p'.available ∧
      ∀ x, x ≠ c → (x ∈ p'.available ↔ x ∈ p.available)) ∧
    ((p.take exclude).1 = none ↔ ∀ x ∈ p.available, x ∈ exclude) := by
  refine ⟨newReviewerPool_WF ids, ?_, take_none_iff p exclude hwf⟩
  intro c p' h
  obtain ⟨hc, hex, ha, hwf'⟩ := take_some_spec p exclude c p' hwf h
  refine ⟨hc, hex, hwf', ?_, ?_⟩
  · rw [ha]
    exact fun hmem => ((List.Nodup.mem_erase_iff hwf.2.1).mp hmem).1 rfl
  · intro x hx
    rw [ha, List.Nodup.mem_erase_iff hwf.2.1]
    exact ⟨fun hh => hh.2, fun hh => ⟨hx, hh⟩⟩

/-- C5 witness: the round-robin properties evaluated on the concrete pool
over ids a, b with everything excluded. -/
theorem C5_pool_round_robin_witness :
    (newReviewerPool ["a", "b"]).WF ∧
    (((newReviewerPool ["a", "b"]).take ["a", "b"]).1 = none ↔
      ∀ x ∈ (newReviewerPool ["a", "b"]).available, x ∈ ["a", "b"]) :=
  ⟨by decide,
   (C5_pool_round_robin [] (newReviewerPool ["a", "b"]) ["a", "b"] (by decide)).2.2⟩

/-! C8: durable activity toggle with rollback. -/

/-- C8: for every cached user, SetUserActivity updates the cached active
flag and persists the updated user through the store in the same call; if
the store write fails, the returned state keeps the cache at its prior
value (the in-place flag change is rolled back) and an error is returned,
so the cache never diverges from a failed write. -/
theorem C8_set_user_activity (st : RepoState) (cache : List User)
    (userID : String) (isActive : Bool) (user : User)
    (hfind : cache.find? (fun u => u.userId == userID) = some user) :
    (UserManager.SetUserActivity (fun s u => .ok (Storage.SaveUser s u))
        (some st) cache userID isActive
      = ⟨.ok { user with isActive := isActive },
         cacheUpsert cache { user with isActive := isActive },
         some (Storage.SaveUser st { user with isActive := isActive })⟩) ∧
    (∀ msg, UserManager.SetUserActivity (fun _ _ => .error msg)
        (some st) cache userID isActive
      = ⟨.error (.generic ("failed to save user: " ++ msg)), cache, some st⟩) := by
  constructor
  · unfold UserManager.SetUserActivity
    rw [hfind]
  · intro msg
    unfold UserManager.SetUserActivity
    rw [hfind]

/-- C8 witness: a concrete cached user whose store write fails; the cache
comes back unchanged with the flag still true. -/
theorem C8_set_user_activity_witness :
    (([(⟨true, "T", "u1", "one"⟩ : User)].find? (fun u => u.userId == "u1"))
        = some ⟨true, "T", "u1", "one"⟩) ∧
    (UserManager.SetUserActivity (fun _ _ => .error "boom") (some ⟨[], [], []⟩)
        [⟨true, "T", "u1", "one"⟩] "u1" false
      = ⟨.error (.generic ("failed to save user: " ++ "boom")),
         [⟨true, "T", "u1", "one"⟩], some ⟨[], [], []⟩⟩) :=
  ⟨by decide,
   (C8_set_user_activity ⟨[], [], []⟩ [⟨true, "T", "u1", "one"⟩] "u1" false
      ⟨true, "T", "u1", "one"⟩ (by decide)).2 "boom"⟩

/-! C4: merge idempotence. -/

theorem insertReviewersLoop_mem :
    ∀ (l seen : List String) (x : String), x ∈ insertReviewersLoop l seen →
      x ∈ l ∧ x ≠ "" ∧ x ∉ seen := by
  intro l
  induction l with
  | nil => intro seen x h; simp [insertReviewersLoop] at h
  | cons r rest ih =>
    intro seen x h
    simp only [insertReviewersLoop] at h
    by_cases h1 : r = ""
    · rw [if_pos h1] at h
      obtain ⟨hm, hne, hs⟩ := ih seen x h
      exact ⟨List.mem_cons_of_mem _ hm, hne, hs⟩
    · rw [if_neg h1] at h
      by_cases h2 : r ∈ seen
      · rw [if_pos h2] at h
        obtain ⟨hm, hne, hs⟩ := ih seen x h
        exact ⟨List.mem_cons_of_mem _ hm, hne, hs⟩
      · rw [if_neg h2] at h
        rcases List.mem_cons.mp h with h | h
        · subst h; exact ⟨List.mem_cons_self _ _, h1, h2⟩
        · obtain ⟨hm, hne, hs⟩ := ih (r :: seen) x h
          exact ⟨List.mem_cons_of_mem _ hm, hne,
            fun hx => hs (List.mem_cons_of_mem _ hx)⟩

theorem insertReviewersLoop_nodup :
    ∀ (l seen : List String), (insertReviewersLoop l seen).Nodup := by
  intro l
  induction l with
  | nil => intro seen; simp [insertReviewersLoop]
  | cons r rest ih =>
    intro seen
    simp only [insertReviewersLoop]
    by_cases h1 : r = ""
    · rw [if_pos h1]; exact ih seen
    · rw [if_neg h1]
      by_cases h2 : r ∈ seen
      · rw [if_pos h2]; exact ih seen
      · rw [if_neg h2]
        refine List.nodup_cons.mpr ⟨?_, ih (r :: seen)⟩
        intro hmem
        exact (insertReviewersLoop_mem rest (r :: seen) r hmem).2.2
          (List.mem_cons_self _ _)

theorem insertReviewersLoop_length :
    ∀ (l seen : List String), (insertReviewersLoop l seen).length ≤ l.length := by
  intro l
  induction l with
  | nil => intro seen; simp [insertReviewersLoop]
  | cons r rest ih =>
    intro seen
    simp only [insertReviewersLoop]
    by_cases h1 : r = ""
    · rw [if_pos h1]; exact Nat.le_succ_of_le (ih seen)
    · rw [if_neg h1]
      by_cases h2 : r ∈ seen
      · rw [if_pos h2]; exact Nat.le_succ_of_le (ih seen)
      · rw [if_neg h2]
        simpa using Nat.succ_le_succ (ih (r :: seen))

theorem insertReviewersLoop_id :
    ∀ (l seen : List String), l.Nodup → "" ∉ l → (∀ x ∈ l, x ∉ seen) →
      insertReviewersLoop l seen = l := by
  intro l
  induction l with
  | nil => intro seen _ _ _; rfl
  | cons r rest ih =>
    intro seen hnd hne hseen
    obtain ⟨hr, hrest⟩ := List.nodup_cons.mp hnd
    simp only [insertReviewersLoop]
    rw [if_neg (show ¬ r = "" from fun hh => hne (by rw [← hh]; exact List.mem_cons_self r rest)),
      if_neg (hseen r (List.mem_cons_self r rest))]
    congr 1
    refine ih (r :: seen) hrest (fun hh => hne (List.mem_cons_of_mem _ hh)) ?_
    intro x hx
    intro hh
    rcases List.mem_cons.mp hh with h1 | h2
    · exact hr (h1 ▸ hx)
    · exact hseen x (List.mem_cons_of_mem _ hx) h2

theorem find?_upsertPR (prs : List PullRequest) (pr : PullRequest) :
    (upsertPR prs pr).find? (fun q => q.pullRequestId == pr.pullRequestId)
      = some pr := by
  unfold upsertPR
  rw [find?_append_of_none]
  · simp [List.find?]
  · intro x hx
    have hne : x.pullRequestId ≠ pr.pullRequestId := by
      have := List.mem_filter.mp hx
      simpa using this.2
    simpa using hne

theorem GetPullRequest_ok_mem (st : RepoState) (prID : String)
    (pr : PullRequest) (h : Storage.GetPullRequest st prID = .ok pr) :
    pr ∈ st.prs ∧ pr.pullRequestId = prID := by
  unfold Storage.GetPullRequest at h
  rcases hf : st.prs.find? (fun q => q.pullRequestId == prID) with _ | q
  · rw [hf] at h; simp at h
  · rw [hf] at h
    simp only [Except.ok.injEq] at h
    subst h
    refine ⟨List.mem_of_find?_eq_some hf, ?_⟩
    have := List.find?_some hf
    simpa using this

/-- The status/time stamping Merge performs on an OPEN pull request. -/
def mergeStamp (pr : PullRequest) (now : Nat) : PullRequest :=
  { pr with status := .MERGED, mergedAt := some now }

theorem merge_open_eq (st : RepoState) (prId : String) (now : Nat)
    (pr : PullRequest) (hwf : RepoWF st)
    (hget : Storage.GetPullRequest st prId = .ok pr)
    (hst : ¬ pr.status = .MERGED) :
    Merge st now prId =
      ⟨.ok (mergeStamp pr now),
       { st with prs := upsertPR st.prs (mergeStamp pr now) },
       some (mergeStamp pr now),
       if (mergeStamp pr now).assignedReviewers.length > 0
       then [((mergeStamp pr now).assignedReviewers, true)] else []⟩ := by
  obtain ⟨hmem, hid⟩ := GetPullRequest_ok_mem st prId pr hget
  obtain ⟨hnd, hlen, hne⟩ := hwf.2 pr hmem
  have hins : insertReviewersLoop (mergeStamp pr now).assignedReviewers []
      = (mergeStamp pr now).assignedReviewers :=
    insertReviewersLoop_id _ [] hnd hne (by simp)
  have hsave : Storage.SavePullRequest st (mergeStamp pr now)
      = .ok { st with prs := upsertPR st.prs (mergeStamp pr now) } := by
    unfold Storage.SavePullRequest
    rw [if_neg (by simp only [mergeStamp]; omega)]
    rw [hins]
  simp only [Merge, hget]
  rw [if_neg hst]
  simp only [mergeStamp] at hsave ⊢
  simp only [hsave]

/-- C4: merge is idempotent.  A PR whose stored status is already MERGED is
returned unchanged with no error, no save and no reviewer-activity
dispatch; and after any successful merge, merging again returns the same
pull request, leaves the store untouched, performs no save and dispatches
no activity update. -/
theorem C4_merge_idempotent (st : RepoState) (prId : String) (now later : Nat)
    (hwf : RepoWF st) :
    (∀ pr, Storage.GetPullRequest st prId = .ok pr → pr.status = .MERGED →
      Merge st now prId = ⟨.ok pr, st, none, []⟩) ∧
    (∀ pr₁, (Merge st now prId).res = .ok pr₁ →
      Merge (Merge st now prId).repo later prId
        = ⟨.ok pr₁, (Merge st now prId).repo, none, []⟩) := by
  constructor
  · intro pr hget hst
    simp only [Merge, hget]
    rw [if_pos hst]
  · intro pr₁ hres
    rcases hget : Storage.GetPullRequest st prId with e | pr
    · exfalso
      simp only [Merge, hget] at hres
      by_cases hnf : e.isNotFound = true
      · rw [if_pos hnf] at hres; simp at hres
      · rw [if_neg hnf] at hres; simp at hres
    · by_cases hst : pr.status = .MERGED
      · have hM : Merge st now prId = ⟨.ok pr, st, none, []⟩ := by
          simp only [Merge, hget]
          rw [if_pos hst]
        rw [hM] at hres ⊢
        simp only [Except.ok.injEq] at hres
        subst hres
        simp only [Merge, hget]
        rw [if_pos hst]
      · have hM := merge_open_eq st prId now pr hwf hget hst
        rw [hM] at hres ⊢
        simp only [Except.ok.injEq] at hres
        subst hres
        have hid : pr.pullRequestId = prId := (GetPullRequest_ok_mem st prId pr hget).2
        have hget' : Storage.GetPullRequest
            { st with prs := upsertPR st.prs (mergeStamp pr now) } prId
            = .ok (mergeStamp pr now) := by
          unfold Storage.GetPullRequest
          have hfind := find?_upsertPR st.prs (mergeStamp pr now)
          have hid' : (mergeStamp pr now).pullRequestId = prId := hid
          rw [hid'] at hfind
          simp only [hfind]
        simp only [Merge, hget']
        rw [if_pos (show (mergeStamp pr now).status = .MERGED from rfl)]

/-- C4 witness: a concrete store holding an already-merged PR; merging it
returns it unchanged with no save and no activity dispatch. -/
theorem C4_merge_idempotent_witness :
    RepoWF ⟨["T"], [], [⟨["X", "Y"], "A", some 0, some 5, "P1", "p1", .MERGED⟩]⟩ ∧
    Merge ⟨["T"], [], [⟨["X", "Y"], "A", some 0, some 5, "P1", "p1", .MERGED⟩]⟩ 9 "P1"
      = ⟨.ok ⟨["X", "Y"], "A", some 0, some 5, "P1", "p1", .MERGED⟩,
         ⟨["T"], [], [⟨["X", "Y"], "A", some 0, some 5, "P1", "p1", .MERGED⟩]⟩,
         none, []⟩ :=
  ⟨by decide,
   (C4_merge_idempotent ⟨["T"], [], [⟨["X", "Y"], "A", some 0, some 5, "P1", "p1", .MERGED⟩]⟩
      "P1" 9 0 (by decide)).1
     ⟨["X", "Y"], "A", some 0, some 5, "P1", "p1", .MERGED⟩ (by decide) (by decide)⟩

/-! C3: single reassignment. -/

theorem FindReplacementReviewer_ok (cache : List User) (teamName : String)
    (excludeUserIDs : List String) (newId : String)
    (h : UserManager.FindReplacementReviewer cache teamName excludeUserIDs
      = .ok newId) :
    newId ∉ excludeUserIDs ∧
    ∃ u ∈ cache, u.userId = newId ∧ u.teamName = teamName ∧
      u.isActive = true := by
  unfold UserManager.FindReplacementReviewer at h
  rcases hf : cache.find? (fun user => decide (user.teamName = teamName ∧
      user.isActive = true ∧ user.userId ∉ excludeUserIDs)) with _ | u
  · rw [hf] at h; simp at h
  · rw [hf] at h
    simp only [Except.ok.injEq] at h
    subst h
    have hp := List.find?_some hf
    simp only [decide_eq_true_eq] at hp
    obtain ⟨hteam, hact, hexcl⟩ := hp
    exact ⟨hexcl, u, List.mem_of_find?_eq_some hf, rfl, hteam, hact⟩

/-- C3: for every stored OPEN pull request containing the departing
reviewer, a successful Reassign keeps the reviewer-set size, removes the
departing id, adds exactly one new id, and that new id is an active cached
member of the departing reviewer's team, distinct from every prior reviewer
of the PR and from the departing reviewer. -/
theorem C3_reassign_spec (repo : RepoState) (cache : List User)
    (oldUserId prId : String) (resp : ReassignResponse) (hwf : RepoWF repo)
    (hok : (Reassign repo cache oldUserId prId).res = .ok resp) :
    ∃ pr teamName cache',
      Storage.GetPullRequest repo prId = .ok pr ∧
      pr.status = .OPEN ∧
      oldUserId ∈ pr.assignedReviewers ∧
      UserManager.GetUserTeam (some repo) cache oldUserId = .ok (teamName, cache') ∧
      resp.pr.assignedReviewers.length = pr.assignedReviewers.length ∧
      oldUserId ∉ resp.pr.assignedReviewers ∧
      resp.replacedBy ∈ resp.pr.assignedReviewers ∧
      resp.replacedBy ∉ pr.assignedReviewers ∧
      resp.replacedBy ≠ oldUserId ∧
      (∃ u ∈ cache', u.userId = resp.replacedBy ∧ u.teamName = teamName ∧
        u.isActive = true) ∧
      (∀ x, x ∈ resp.pr.assignedReviewers ↔
        (x ∈ pr.assignedReviewers ∧ x ≠ oldUserId) ∨ x = resp.replacedBy) := by
  rcases hget : Storage.GetPullRequest repo prId with e | pr
  · exfalso
    simp only [Reassign, hget] at hok
    by_cases hnf : e.isNotFound = true
    · rw [if_pos hnf] at hok; simp at hok
    · rw [if_neg hnf] at hok; simp at hok
  by_cases hst : pr.status = .MERGED
  · exfalso
    simp only [Reassign, hget] at hok
    rw [if_pos hst] at hok
    simp at hok
  by_cases hass : oldUserId ∈ pr.assignedReviewers
  case neg =>
    exfalso
    simp only [Reassign, hget] at hok
    rw [if_neg hst, if_pos hass] at hok
    simp at hok
  rcases hteam : UserManager.GetUserTeam (some repo) cache oldUserId with e | tc
  · exfalso
    simp only [Reassign, hget, hteam] at hok
    rw [if_neg hst, if_neg (by simpa using hass)] at hok
    simp at hok
  obtain ⟨teamName, cache'⟩ := tc
  rcases hfind : UserManager.FindReplacementReviewer cache' teamName
      (pr.assignedReviewers ++ [oldUserId]) with e | newId
  · exfalso
    simp only [Reassign, hget, hteam, hfind] at hok
    rw [if_neg hst, if_neg (by simpa using hass)] at hok
    by_cases hnc : e.isNoCandidate = true
    · rw [if_pos hnc] at hok; simp at hok
    · rw [if_neg hnc] at hok; simp at hok
  rcases hsave : Storage.SavePullRequest repo
      { pr with assignedReviewers :=
          (pr.assignedReviewers.filter (fun r => r ≠ oldUserId)) ++ [newId] }
      with e | repo'
  · exfalso
    simp only [Reassign, hget, hteam, hfind, hsave] at hok
    rw [if_neg hst, if_neg (by simpa using hass)] at hok
    simp at hok
  have hM : (Reassign repo cache oldUserId prId).res
      = .ok (ReassignResponse.mk
          ({ pr with assignedReviewers :=
            (pr.assignedReviewers.filter (fun r => r ≠ oldUserId)) ++ [newId] })
          newId) := by
    simp only [Reassign, hget, hteam, hfind, hsave]
    rw [if_neg hst, if_neg (by simpa using hass)]
  rw [hM] at hok
  simp only [Except.ok.injEq] at hok
  subst hok
  obtain ⟨hmem, _⟩ := GetPullRequest_ok_mem repo prId pr hget
  obtain ⟨hnd, hlen, hne⟩ := hwf.2 pr hmem
  obtain ⟨hexcl, hexists⟩ := FindReplacementReviewer_ok cache' teamName
    (pr.assignedReviewers ++ [oldUserId]) newId hfind
  have hnewrevs : newId ∉ pr.assignedReviewers := by
    intro hh; exact hexcl (List.mem_append.mpr (Or.inl hh))
  have hnewold : newId ≠ oldUserId := by
    intro hh; exact hexcl (List.mem_append.mpr (Or.inr (by simp [hh])))
  have hopen : pr.status = .OPEN := by
    cases hps : pr.status
    · rfl
    · exact absurd hps hst
  refine ⟨pr, teamName, cache', rfl, hopen, hass, rfl, ?_, ?_, ?_, hnewrevs,
    hnewold, hexists, ?_⟩
  · simp only [List.length_append, List.length_singleton]
    have := length_filter_ne_of_mem oldUserId pr.assignedReviewers hnd hass
    omega
  · intro hh
    rcases List.mem_append.mp hh with hh | hh
    · exact (mem_filter_ne.mp hh).2 rfl
    · exact hnewold ((List.mem_singleton.mp hh).symm)
  · exact List.mem_append.mpr (Or.inr (List.mem_singleton.mpr rfl))
  · intro x
    simp only [List.mem_append, mem_filter_ne, List.mem_singleton]

/-- C3 witness: concrete reassignment in team T of reviewer X on PR P1,
replaced by the only remaining active team member Z. -/
theorem C3_reassign_spec_witness :
    RepoWF ⟨["T"], [⟨"X", "x", true, some "T"⟩, ⟨"Y", "y", true, some "T"⟩,
      ⟨"Z", "z", true, some "T"⟩], [⟨["X", "Y"], "A", some 0, none, "P1", "p1", .OPEN⟩]⟩ ∧
    ∃ pr teamName cache',
      Storage.GetPullRequest ⟨["T"], [⟨"X", "x", true, some "T"⟩,
        ⟨"Y", "y", true, some "T"⟩, ⟨"Z", "z", true, some "T"⟩],
        [⟨["X", "Y"], "A", some 0, none, "P1", "p1", .OPEN⟩]⟩ "P1" = .ok pr ∧
      pr.status = .OPEN ∧
      "X" ∈ pr.assignedReviewers ∧
      UserManager.GetUserTeam (some ⟨["T"], [⟨"X", "x", true, some "T"⟩,
        ⟨"Y", "y", true, some "T"⟩, ⟨"Z", "z", true, some "T"⟩],
        [⟨["X", "Y"], "A", some 0, none, "P1", "p1", .OPEN⟩]⟩)
        [⟨true, "T", "X", "x"⟩, ⟨true, "T", "Y", "y"⟩, ⟨true, "T", "Z", "z"⟩]
        "X" = .ok (teamName, cache') ∧
      (⟨⟨["Y", "Z"], "A", some 0, none, "P1", "p1", .OPEN⟩, "Z"⟩ :
        ReassignResponse).pr.assignedReviewers.length
        = pr.assignedReviewers.length ∧
      "X" ∉ (⟨⟨["Y", "Z"], "A", some 0, none, "P1", "p1", .OPEN⟩, "Z"⟩ :
        ReassignResponse).pr.assignedReviewers ∧
      (⟨⟨["Y", "Z"], "A", some 0, none, "P1", "p1", .OPEN⟩, "Z"⟩ :
        ReassignResponse).replacedBy ∈ (⟨⟨["Y", "Z"], "A", some 0, none, "P1",
        "p1", .OPEN⟩, "Z"⟩ : ReassignResponse).pr.assignedReviewers ∧
      (⟨⟨["Y", "Z"], "A", some 0, none, "P1", "p1", .OPEN⟩, "Z"⟩ :
        ReassignResponse).replacedBy ∉ pr.assignedReviewers ∧
      (⟨⟨["Y", "Z"], "A", some 0, none, "P1", "p1", .OPEN⟩, "Z"⟩ :
        ReassignResponse).replacedBy ≠ "X" ∧
      (∃ u ∈ cache', u.userId = (⟨⟨["Y", "Z"], "A", some 0, none, "P1", "p1",
        .OPEN⟩, "Z"⟩ : ReassignResponse).replacedBy ∧ u.teamName = teamName ∧
        u.isActive = true) ∧
      (∀ x, x ∈ (⟨⟨["Y", "Z"], "A", some 0, none, "P1", "p1", .OPEN⟩, "Z"⟩ :
        ReassignResponse).pr.assignedReviewers ↔
        (x ∈ pr.assignedReviewers ∧ x ≠ "X") ∨ x = (⟨⟨["Y", "Z"], "A", some 0,
        none, "P1", "p1", .OPEN⟩, "Z"⟩ : ReassignResponse).replacedBy) :=
  ⟨by decide,
   C3_reassign_spec ⟨["T"], [⟨"X", "x", true, some "T"⟩, ⟨"Y", "y", true, some "T"⟩,
      ⟨"Z", "z", true, some "T"⟩], [⟨["X", "Y"], "A", some 0, none, "P1", "p1", .OPEN⟩]⟩
    [⟨true, "T", "X", "x"⟩, ⟨true, "T", "Y", "y"⟩, ⟨true, "T", "Z", "z"⟩]
    "X" "P1" ⟨⟨["Y", "Z"], "A", some 0, none, "P1", "p1", .OPEN⟩, "Z"⟩
    (by decide) (by decide)⟩

/-! The bulk-swap planner: facts about planPRLoop and planLoop. -/

theorem planPRLoop_error (targetSet : List String) (prId : String) :
    ∀ (revs assigned : List String) (pool : reviewerPool) (e : DomainError),
    planPRLoop targetSet prId revs assigned pool = .error e →
    e = .noCandidate prId := by
  intro revs
  induction revs with
  | nil => intro assigned pool e h; simp [planPRLoop] at h
  | cons reviewer rest ih =>
    intro assigned pool e h
    simp only [planPRLoop] at h
    by_cases htgt : reviewer ∉ targetSet
    · rw [if_pos htgt] at h
      exact ih assigned pool e h
    · rw [if_neg htgt] at h
      rcases htake : pool.take assigned with ⟨ores, pool'⟩
      rw [htake] at h
      cases ores with
      | none => simp at h; exact h.symm
      | some newReviewer =>
        simp only at h
        rcases hrec : planPRLoop targetSet prId rest (newReviewer :: assigned) pool'
            with e' | trip
        · rw [hrec] at h
          simp at h
          exact h ▸ ih _ _ _ hrec
        · rw [hrec] at h
          simp at h

theorem planPRLoop_ok (targetSet : List String) (prId : String) :
    ∀ (revs assigned : List String) (pool : reviewerPool)
      (reps : List ReviewerReplacement) (assignedF : List String)
      (poolF : reviewerPool),
    pool.WF →
    planPRLoop targetSet prId revs assigned pool = .ok (reps, assignedF, poolF) →
    reps.map (fun r => r.oldUserId)
        = revs.filter (fun r => decide (r ∈ targetSet)) ∧
    (reps.map (fun r => r.newUserId)).Nodup ∧
    (∀ r ∈ reps, r.newUserId ∈ pool.available ∧ r.newUserId ∉ assigned) ∧
    poolF.WF ∧
    (∀ x ∈ poolF.available, x ∈ pool.available) := by
  intro revs
  induction revs with
  | nil =>
    intro assigned pool reps assignedF poolF hwf h
    simp only [planPRLoop, Except.ok.injEq, Prod.mk.injEq] at h
    obtain ⟨h1, _, h3⟩ := h
    subst h1; subst h3
    exact ⟨by simp, by simp, by simp, hwf, fun x hx => hx⟩
  | cons reviewer rest ih =>
    intro assigned pool reps assignedF poolF hwf h
    simp only [planPRLoop] at h
    by_cases htgt : reviewer ∉ targetSet
    · rw [if_pos htgt] at h
      obtain ⟨holds, hnodup, hmem, hwfF, hsub⟩ := ih assigned pool reps assignedF poolF hwf h
      refine ⟨?_, hnodup, hmem, hwfF, hsub⟩
      rw [holds, List.filter_cons, if_neg (by simpa using htgt)]
    · rw [if_neg htgt] at h
      rcases htake : pool.take assigned with ⟨ores, pool'⟩
      rw [htake] at h
      cases ores with
      | none => simp at h
      | some newReviewer =>
        simp only at h
        rcases hrec : planPRLoop targetSet prId rest (newReviewer :: assigned) pool'
            with e' | trip
        · rw [hrec] at h; simp at h
        · obtain ⟨reps', assignedF', poolF'⟩ := trip
          rw [hrec] at h
          simp only [Except.ok.injEq, Prod.mk.injEq] at h
          obtain ⟨h1, h2, h3⟩ := h
          subst h1; subst h2; subst h3
          obtain ⟨hnew_avail, hnew_excl, hav_erase, hwf'⟩ :=
            take_some_spec pool assigned newReviewer pool' hwf htake
          obtain ⟨holds, hnodup, hmem, hwfF, hsub⟩ :=
            ih (newReviewer :: assigned) pool' reps' assignedF' poolF' hwf' hrec
          have havail_sub : ∀ x ∈ pool'.available, x ∈ pool.available := by
            intro x hx
            rw [hav_erase] at hx
            exact List.mem_of_mem_erase hx
          have hnot_new : ∀ x ∈ pool'.available, x ≠ newReviewer := by
            intro x hx
            rw [hav_erase] at hx
            exact ((List.Nodup.mem_erase_iff hwf.2.1).mp hx).1
          refine ⟨?_, ?_, ?_, hwfF, fun x hx => havail_sub x (hsub x hx)⟩
          · rw [List.map_cons, holds, List.filter_cons,
              if_pos (show decide (reviewer ∈ targetSet) = true by
                simpa using not_not.mp htgt)]
          · simp only [List.map_cons]
            refine List.nodup_cons.mpr ⟨?_, hnodup⟩
            intro hcontra
            obtain ⟨r, hr, hrnew⟩ := List.mem_map.mp hcontra
            exact hnot_new r.newUserId (hmem r hr).1 hrnew
          · intro r hr
            rcases List.mem_cons.mp hr with h | h
            · subst h
              exact ⟨hnew_avail, fun hc => hnew_excl hc⟩
            · obtain ⟨h1, h2⟩ := hmem r h
              exact ⟨havail_sub _ h1, fun hc => h2 (List.mem_cons_of_mem _ hc)⟩

/-- The swaps of one pull request within a swap list. -/
def SwapsFor (prId : String) (swaps : List ReviewerSwap) : List ReviewerSwap :=
  swaps.filter (fun s => decide (s.pullRequestId = prId))

/-- Flattening of the per-PR reassignment report back into swap tuples. -/
def reassignmentSwaps (rs : List TeamPRReassignment) : List ReviewerSwap :=
  rs.flatMap (fun r => r.replacements.map (fun rep =>
    { pullRequestId := r.pullRequestId, oldUserId := rep.oldUserId,
      newUserId := rep.newUserId }))

/-- The per-PR guarantees the planner provides about the swaps it emits for
one pull request: distinct departing reviewers taken from the PR's reviewer
set, and distinct fresh replacements drawn from the candidate pool, none of
which was already reviewing the PR. -/
def SwapsOKFor (pr : PullRequest) (avail : List String)
    (sw : List ReviewerSwap) : Prop :=
  (sw.map (fun s => s.oldUserId)).Nodup ∧
  (∀ s ∈ sw, s.oldUserId ∈ pr.assignedReviewers) ∧
  (sw.map (fun s => s.newUserId)).Nodup ∧
  (∀ s ∈ sw, s.newUserId ∉ pr.assignedReviewers ∧ s.newUserId ∈ avail)

theorem planLoop_error (targetSet : List String) :
    ∀ (prs : List PullRequest) (pool : reviewerPool) (e : DomainError),
    planLoop targetSet prs pool = .error e → ∃ prId, e = .noCandidate prId := by
  intro prs
  induction prs with
  | nil => intro pool e h; simp [planLoop] at h
  | cons pr rest ih =>
    intro pool e h
    simp only [planLoop] at h
    rcases hpl : planPRLoop targetSet pr.pullRequestId pr.assignedReviewers
        pr.assignedReviewers pool with e' | trip₁
    · rw [hpl] at h
      simp only [Except.error.injEq] at h
      exact ⟨pr.pullRequestId, h ▸ planPRLoop_error targetSet pr.pullRequestId
        _ _ _ _ hpl⟩
    · obtain ⟨reps, assignedF, pool'⟩ := trip₁
      rw [hpl] at h
      simp only at h
      rcases hrec : planLoop targetSet rest pool' with e'' | trip₂
      · rw [hrec] at h
        simp only [Except.error.injEq] at h
        exact h ▸ ih pool' e'' hrec
      · rw [hrec] at h
        simp at h

theorem planLoop_ok (targetSet : List String) :
    ∀ (prs : List PullRequest) (pool : reviewerPool)
      (swaps : List ReviewerSwap) (reass : List TeamPRReassignment)
      (replIDs : List String) (poolF : reviewerPool),
    pool.WF →
    (prs.map (fun pr => pr.pullRequestId)).Nodup →
    planLoop targetSet prs pool = .ok (swaps, reass, replIDs, poolF) →
    replIDs = swaps.map (fun s => s.newUserId) ∧
    reassignmentSwaps reass = swaps ∧
    (∀ s ∈ swaps, ∃ pr ∈ prs, s.pullRequestId = pr.pullRequestId) ∧
    (∀ pr ∈ prs, pr.assignedReviewers.Nodup →
      SwapsOKFor pr pool.available (SwapsFor pr.pullRequestId swaps)) := by
  intro prs
  induction prs with
  | nil =>
    intro pool swaps reass replIDs poolF hwf hids h
    simp only [planLoop, Except.ok.injEq, Prod.mk.injEq] at h
    obtain ⟨h1, h2, h3, _⟩ := h
    subst h1; subst h2; subst h3
    exact ⟨by simp, by simp [reassignmentSwaps], by simp, by simp⟩
  | cons pr rest ih =>
    intro pool swaps reass replIDs poolF hwf hids h
    simp only [planLoop] at h
    rcases hpl : planPRLoop targetSet pr.pullRequestId pr.assignedReviewers
        pr.assignedReviewers pool with e' | trip₁
    · rw [hpl] at h; simp at h
    obtain ⟨reps, assignedF, pool'⟩ := trip₁
    rw [hpl] at h
    simp only at h
    rcases hrec : planLoop targetSet rest pool' with e'' | trip₂
    · rw [hrec] at h; simp at h
    obtain ⟨swaps', reass', replIDs', poolF'⟩ := trip₂
    rw [hrec] at h
    simp only [Except.ok.injEq, Prod.mk.injEq] at h
    obtain ⟨h1, h2, h3, _⟩ := h
    subst h1; subst h2; subst h3
    obtain ⟨holds, hnewnodup, hnewmem, hwf', havsub⟩ :=
      planPRLoop_ok targetSet pr.pullRequestId pr.assignedReviewers
        pr.assignedReviewers pool reps assignedF pool' hwf hpl
    have hid_notin : pr.pullRequestId ∉ rest.map (fun q => q.pullRequestId) :=
      (List.nodup_cons.mp (by simpa using hids)).1
    have hids' : (rest.map (fun q => q.pullRequestId)).Nodup :=
      (List.nodup_cons.mp (by simpa using hids)).2
    obtain ⟨hrepl', hflat', hin', hok'⟩ :=
      ih pool' swaps' reass' replIDs' poolF' hwf' hids' hrec
    set mySwaps := reps.map (fun rep =>
      ({ pullRequestId := pr.pullRequestId, oldUserId := rep.oldUserId,
         newUserId := rep.newUserId } : ReviewerSwap)) with hmy
    have hmy_id : ∀ s ∈ mySwaps, s.pullRequestId = pr.pullRequestId := by
      intro s hs
      obtain ⟨rep, _, hconv⟩ := List.mem_map.mp hs
      rw [← hconv]
    have hmy_old : mySwaps.map (fun s => s.oldUserId)
        = reps.map (fun r => r.oldUserId) := by
      rw [hmy, List.map_map]; rfl
    have hmy_new : mySwaps.map (fun s => s.newUserId)
        = reps.map (fun r => r.newUserId) := by
      rw [hmy, List.map_map]; rfl
    have hin_swaps' : ∀ s ∈ swaps', s.pullRequestId ≠ pr.pullRequestId := by
      intro s hs hcontra
      obtain ⟨q, hq, hsq⟩ := hin' s hs
      have hqmem : q.pullRequestId ∈ rest.map (fun x => x.pullRequestId) :=
        List.mem_map_of_mem _ hq
      rw [← hsq, hcontra] at hqmem
      exact hid_notin hqmem
    refine ⟨?_, ?_, ?_, ?_⟩
    · rw [List.map_append, hmy_new, hrepl']
    · by_cases hre : reps.isEmpty
      · have hrnil : reps = [] := List.isEmpty_iff.mp hre
        subst hrnil
        simpa [hmy] using hflat'
      · rw [if_neg hre]
        have hflat'' : reass'.flatMap (fun r => r.replacements.map (fun rep =>
            ({ pullRequestId := r.pullRequestId, oldUserId := rep.oldUserId,
               newUserId := rep.newUserId } : ReviewerSwap))) = swaps' := hflat'
        simp only [reassignmentSwaps, List.flatMap_cons, hflat'']
    · intro s hs
      rcases List.mem_append.mp hs with hs | hs
      · exact ⟨pr, List.mem_cons_self _ _, hmy_id s hs⟩
      · obtain ⟨q, hq, hsq⟩ := hin' s hs
        exact ⟨q, List.mem_cons_of_mem _ hq, hsq⟩
    · intro q hq hqnd
      rcases List.mem_cons.mp hq with hq | hq
      · subst hq
        have hsf : SwapsFor q.pullRequestId (mySwaps ++ swaps') = mySwaps := by
          unfold SwapsFor
          rw [List.filter_append]
          rw [List.filter_eq_self.mpr (fun s hs => by simpa using hmy_id s hs)]
          rw [List.filter_eq_nil_iff.mpr (fun s hs => by simpa using hin_swaps' s hs)]
          simp
        rw [hsf]
        refine ⟨?_, ?_, ?_, ?_⟩
        · rw [hmy_old, holds]
          exact List.Nodup.filter _ hqnd
        · intro s hs
          have : s.oldUserId ∈ mySwaps.map (fun s => s.oldUserId) :=
            List.mem_map_of_mem _ hs
          rw [hmy_old, holds] at this
          exact (List.mem_filter.mp this).1
        · rw [hmy_new]; exact hnewnodup
        · intro s hs
          obtain ⟨rep, hrep, hconv⟩ := List.mem_map.mp hs
          obtain ⟨h1, h2⟩ := hnewmem rep hrep
          constructor
          · rw [← hconv]; exact h2
          · rw [← hconv]; exact h1
      · have hqid_ne : ∀ s ∈ mySwaps, ¬ s.pullRequestId = q.pullRequestId := by
          intro s hs hcontra
          refine hid_notin ?_
          rw [← hmy_id s hs, hcontra]
          exact List.mem_map_of_mem (fun x => x.pullRequestId) hq
        have hsf : SwapsFor q.pullRequestId (mySwaps ++ swaps')
            = SwapsFor q.pullRequestId swaps' := by
          unfold SwapsFor
          rw [List.filter_append]
          rw [List.filter_eq_nil_iff.mpr (fun s hs => by simpa using hqid_ne s hs)]
          simp
        rw [hsf]
        obtain ⟨k1, k2, k3, k4⟩ := hok' q hq hqnd
        exact ⟨k1, k2, k3, fun s hs => ⟨(k4 s hs).1, havsub _ (k4 s hs).2⟩⟩

/-! Applying planned swaps to the store. -/

/-- The accumulated effect of a sequence of swaps on one PR's reviewer
rows: each swap deletes its old reviewer's row and appends the new one. -/
def applySwapsToReviewers (revs : List String) (sw : List ReviewerSwap) :
    List String :=
  sw.foldl (fun revs s => (revs.filter (fun r => r ≠ s.oldUserId)) ++ [s.newUserId]) revs

theorem applyReviewerSwaps_eq_map :
    ∀ (swaps : List ReviewerSwap) (prs : List PullRequest),
    applyReviewerSwaps prs swaps = prs.map (fun pr =>
      { pr with assignedReviewers := applySwapsToReviewers pr.assignedReviewers (SwapsFor pr.pullRequestId swaps) }) := by
  intro swaps
  induction swaps with
  | nil =>
    intro prs
    exact (List.map_id prs).symm
  | cons s rest ih =>
    intro prs
    have hstep : applyReviewerSwaps prs (s :: rest)
        = applyReviewerSwaps (prs.map (fun pr => applySwapToPR pr s)) rest := rfl
    rw [hstep, ih, List.map_map]
    apply List.map_congr_left
    intro a _
    by_cases hmatch : a.pullRequestId = s.pullRequestId
    · have h1 : applySwapToPR a s = { a with assignedReviewers := (a.assignedReviewers.filter (fun r => r ≠ s.oldUserId)) ++ [s.newUserId] } := by
        unfold applySwapToPR
        rw [if_pos hmatch]
      simp only [Function.comp_apply, h1]
      unfold SwapsFor
      rw [List.filter_cons, if_pos (by simp [hmatch.symm])]
      rfl
    · have h1 : applySwapToPR a s = a := by
        unfold applySwapToPR
        rw [if_neg hmatch]
      simp only [Function.comp_apply, h1]
      unfold SwapsFor
      rw [List.filter_cons,
        if_neg (by simp only [decide_eq_true_eq]; exact fun hh => hmatch hh.symm)]

theorem foldSwaps_invariant :
    ∀ (sw : List ReviewerSwap) (revs : List String),
    revs.Nodup →
    (sw.map (fun s => s.oldUserId)).Nodup →
    (sw.map (fun s => s.newUserId)).Nodup →
    (∀ s ∈ sw, s.oldUserId ∈ revs) →
    (∀ s ∈ sw, s.newUserId ∉ revs) →
    ((sw.foldl (fun revs s =>
        (revs.filter (fun r => r ≠ s.oldUserId)) ++ [s.newUserId]) revs).Nodup ∧
     (sw.foldl (fun revs s =>
        (revs.filter (fun r => r ≠ s.oldUserId)) ++ [s.newUserId]) revs).length
        = revs.length ∧
     (∀ x ∈ sw.foldl (fun revs s =>
        (revs.filter (fun r => r ≠ s.oldUserId)) ++ [s.newUserId]) revs,
        x ∈ revs ∨ x ∈ sw.map (fun s => s.newUserId))) := by
  intro sw
  induction sw with
  | nil =>
    intro revs hnd _ _ _ _
    exact ⟨hnd, rfl, fun x hx => Or.inl hx⟩
  | cons s rest ih =>
    intro revs hnd holdnd hnewnd holds hnews
    rw [List.map_cons] at holdnd hnewnd
    obtain ⟨hold_head, holdndr⟩ := List.nodup_cons.mp holdnd
    obtain ⟨hnew_head, hnewndr⟩ := List.nodup_cons.mp hnewnd
    have hsold : s.oldUserId ∈ revs := holds s (List.mem_cons_self _ _)
    have hsnew : s.newUserId ∉ revs := hnews s (List.mem_cons_self _ _)
    have hold_ne : ∀ t ∈ rest, t.oldUserId ≠ s.oldUserId := by
      intro t ht hcontra
      exact hold_head (hcontra ▸ List.mem_map_of_mem (fun s => s.oldUserId) ht)
    have hnew_ne : ∀ t ∈ rest, t.newUserId ≠ s.newUserId := by
      intro t ht hcontra
      exact hnew_head (hcontra ▸ List.mem_map_of_mem (fun s => s.newUserId) ht)
    have hnd' : ((revs.filter (fun r => r ≠ s.oldUserId)) ++ [s.newUserId]).Nodup := by
      refine List.Nodup.append (List.Nodup.filter _ hnd) (by simp) ?_
      intro x hx hy
      rw [List.mem_singleton] at hy
      subst hy
      exact hsnew (mem_filter_ne.mp hx).1
    have hlen' : ((revs.filter (fun r => r ≠ s.oldUserId)) ++ [s.newUserId]).length
        = revs.length := by
      rw [List.length_append, List.length_singleton]
      have := length_filter_ne_of_mem s.oldUserId revs hnd hsold
      omega
    have holds' : ∀ t ∈ rest,
        t.oldUserId ∈ (revs.filter (fun r => r ≠ s.oldUserId)) ++ [s.newUserId] := by
      intro t ht
      refine List.mem_append.mpr (Or.inl ?_)
      exact mem_filter_ne.mpr ⟨holds t (List.mem_cons_of_mem _ ht), hold_ne t ht⟩
    have hnews' : ∀ t ∈ rest,
        t.newUserId ∉ (revs.filter (fun r => r ≠ s.oldUserId)) ++ [s.newUserId] := by
      intro t ht hcontra
      rcases List.mem_append.mp hcontra with hh | hh
      · exact hnews t (List.mem_cons_of_mem _ ht) (mem_filter_ne.mp hh).1
      · exact hnew_ne t ht (List.mem_singleton.mp hh)
    obtain ⟨k1, k2, k3⟩ := ih ((revs.filter (fun r => r ≠ s.oldUserId)) ++ [s.newUserId])
      hnd' holdndr hnewndr holds' hnews'
    rw [List.foldl_cons]
    refine ⟨k1, k2.trans hlen', ?_⟩
    intro x hx
    rcases k3 x hx with hh | hh
    · rcases List.mem_append.mp hh with hh | hh
      · exact Or.inl (mem_filter_ne.mp hh).1
      · exact Or.inr (by simp [List.mem_singleton.mp hh])
    · exact Or.inr (by rw [List.map_cons]; exact List.mem_cons_of_mem _ hh)

/-! Anatomy of a bulk-deactivation run. -/

theorem FindOpen_sublist (st : RepoState) (ids : List String) :
    (Storage.FindOpenPullRequestsByReviewers st ids).Sublist st.prs :=
  List.filter_sublist st.prs

theorem normalizeTargetUserIDs_ok_ne_nil (u targets : List String)
    (h : normalizeTargetUserIDs u = .ok targets) : targets ≠ [] := by
  unfold normalizeTargetUserIDs at h
  by_cases hh : (normalizeLoop u []).isEmpty
  · rw [if_pos hh] at h; simp at h
  · rw [if_neg hh] at h
    simp only [Except.ok.injEq] at h
    subst h
    exact fun hc => hh (by simp [hc])

theorem normalizeTargetUserIDs_nil (targets : List String) :
    normalizeTargetUserIDs [] = .ok targets → False := by
  intro h
  simp [normalizeTargetUserIDs, normalizeLoop] at h

theorem bulk_ok_anatomy (repo : RepoState) (cache : List User)
    (teamName : String) (userIDs : List String)
    (r : TeamBulkDeactivateResult)
    (hok : (BulkDeactivateTeamMembers repo cache teamName userIDs).res = .ok r) :
    ∃ targets team swaps reass replIDs poolF,
      normalizeTargetUserIDs userIDs = .ok targets ∧
      UserManager.GetTeam (some repo) cache (trimSpace teamName) = .ok team ∧
      ensureTargetsInTeam targets team.members = .ok () ∧
      planBulkReviewerSwaps repo targets targets
        (newReviewerPool (collectReplacementCandidates team.members targets))
        = .ok (swaps, reass, replIDs, poolF) ∧
      Storage.ApplyBulkTeamReviewerSwaps repo swaps (targets ++ replIDs)
        = .ok (BulkDeactivateTeamMembers repo cache teamName userIDs).repo ∧
      r = ⟨trimSpace teamName, targets, reass⟩ ∧
      (BulkDeactivateTeamMembers repo cache teamName userIDs).applyCall
        = some (swaps, targets ++ replIDs) := by
  by_cases h1 : trimSpace teamName = ""
  · exfalso
    simp only [BulkDeactivateTeamMembers] at hok
    rw [if_pos h1] at hok
    simp at hok
  by_cases h2 : userIDs.isEmpty = true
  · exfalso
    simp only [BulkDeactivateTeamMembers] at hok
    rw [if_neg h1, if_pos h2] at hok
    simp at hok
  rcases hnorm : normalizeTargetUserIDs userIDs with e | targets
  · exfalso
    simp only [BulkDeactivateTeamMembers, hnorm] at hok
    rw [if_neg h1, if_neg h2] at hok
    simp at hok
  rcases hteam : UserManager.GetTeam (some repo) cache (trimSpace teamName)
      with e | team
  · exfalso
    simp only [BulkDeactivateTeamMembers, hnorm, hteam] at hok
    rw [if_neg h1, if_neg h2] at hok
    simp at hok
  rcases hens : ensureTargetsInTeam targets team.members with e | u
  · exfalso
    simp only [BulkDeactivateTeamMembers, hnorm, hteam, hens] at hok
    rw [if_neg h1, if_neg h2] at hok
    simp at hok
  rcases hplan : planBulkReviewerSwaps repo targets targets
      (newReviewerPool (collectReplacementCandidates team.members targets))
      with e | quad
  · exfalso
    simp only [BulkDeactivateTeamMembers, hnorm, hteam, hens, hplan] at hok
    rw [if_neg h1, if_neg h2] at hok
    simp at hok
  obtain ⟨swaps, reass, replIDs, poolF⟩ := quad
  rcases happly : Storage.ApplyBulkTeamReviewerSwaps repo swaps (targets ++ replIDs)
      with e | repo'
  · exfalso
    simp only [BulkDeactivateTeamMembers, hnorm, hteam, hens, hplan, happly] at hok
    rw [if_neg h1, if_neg h2] at hok
    simp at hok
  have hM : BulkDeactivateTeamMembers repo cache teamName userIDs
      = ⟨.ok ⟨trimSpace teamName, targets, reass⟩, repo',
         if (targets ++ replIDs).length > 0
         then UserManager.SyncUsersActivity cache (targets ++ replIDs) false
         else cache,
         some (swaps, targets ++ replIDs)⟩ := by
    simp only [BulkDeactivateTeamMembers, hnorm, hteam, hens, hplan, happly]
    rw [if_neg h1, if_neg h2]
  rw [hM] at hok ⊢
  simp only [Except.ok.injEq] at hok
  exact ⟨targets, team, swaps, reass, replIDs, poolF, rfl, rfl, hens, hplan,
    happly, hok.symm, rfl⟩

/-- C2: bulk deactivation is all-or-nothing.  Once the run reaches the
planning phase (targets normalized, team loaded, membership checked), a
planning failure makes BulkDeactivateTeamMembers return that error — a
NoCandidate error carrying a PR id — without invoking the persistence
operation (applyCall is none), leaving the store (every PR's reviewer set
and every user's active flag) and the directory cache unchanged. -/
theorem C2_bulk_all_or_nothing (repo : RepoState) (cache : List User)
    (teamName : String) (userIDs : List String)
    (targets : List String) (team : Team) (e : DomainError)
    (h1 : trimSpace teamName ≠ "")
    (hnorm : normalizeTargetUserIDs userIDs = .ok targets)
    (hteam : UserManager.GetTeam (some repo) cache (trimSpace teamName) = .ok team)
    (hens : ensureTargetsInTeam targets team.members = .ok ())
    (hplan : planBulkReviewerSwaps repo targets targets
      (newReviewerPool (collectReplacementCandidates team.members targets))
      = .error e) :
    BulkDeactivateTeamMembers repo cache teamName userIDs
      = ⟨.error e, repo, cache, none⟩ ∧
    ∃ prId, e = .noCandidate prId := by
  have hne : ¬ userIDs.isEmpty = true := by
    intro hh
    rcases userIDs with _ | ⟨x, xs⟩
    · exact normalizeTargetUserIDs_nil targets hnorm
    · simp at hh
  constructor
  · simp only [BulkDeactivateTeamMembers, hnorm, hteam, hens, hplan]
    rw [if_neg h1, if_neg hne]
  · exact planLoop_error targets
      (Storage.FindOpenPullRequestsByReviewers repo targets)
      (newReviewerPool (collectReplacementCandidates team.members targets)) e hplan

/-- C2 witness: team T with X, Y, Z active, one open PR reviewed by X and
Y; deactivating X and Y leaves only Z in the pool, so the second slot has
no candidate and the whole run aborts with state untouched. -/
theorem C2_bulk_all_or_nothing_witness :
    trimSpace "T" ≠ "" ∧
    BulkDeactivateTeamMembers
      ⟨["T"], [⟨"X", "x", true, some "T"⟩, ⟨"Y", "y", true, some "T"⟩,
        ⟨"Z", "z", true, some "T"⟩],
       [⟨["X", "Y"], "A", some 0, none, "P2", "p2", .OPEN⟩]⟩
      [⟨true, "T", "X", "x"⟩] "T" ["X", "Y"]
      = ⟨.error (.noCandidate "P2"),
         ⟨["T"], [⟨"X", "x", true, some "T"⟩, ⟨"Y", "y", true, some "T"⟩,
           ⟨"Z", "z", true, some "T"⟩],
          [⟨["X", "Y"], "A", some 0, none, "P2", "p2", .OPEN⟩]⟩,
         [⟨true, "T", "X", "x"⟩], none⟩ :=
  ⟨by decide,
   (C2_bulk_all_or_nothing
      ⟨["T"], [⟨"X", "x", true, some "T"⟩, ⟨"Y", "y", true, some "T"⟩,
        ⟨"Z", "z", true, some "T"⟩],
       [⟨["X", "Y"], "A", some 0, none, "P2", "p2", .OPEN⟩]⟩
      [⟨true, "T", "X", "x"⟩] "T" ["X", "Y"] ["X", "Y"]
      ⟨[⟨true, "X", "x"⟩, ⟨true, "Y", "y"⟩, ⟨true, "Z", "z"⟩], "T"⟩
      (.noCandidate "P2")
      (by decide) (by decide) (by decide) (by decide) (by decide)).1⟩

/-- C6: on a successful bulk deactivation, the id list handed to the single
atomic persistence call is exactly the normalized targets followed by every
replacement drawn during planning (the new ids of the applied swaps, in
order), and the returned result's per-PR reassignment report flattens back
to exactly those swaps. -/
theorem C6_bulk_deactivation_payload (repo : RepoState) (cache : List User)
    (teamName : String) (userIDs : List String)
    (r : TeamBulkDeactivateResult) (hwf : RepoWF repo)
    (hok : (BulkDeactivateTeamMembers repo cache teamName userIDs).res = .ok r) :
    ∃ targets swaps,
      normalizeTargetUserIDs userIDs = .ok targets ∧
      r.deactivated = targets ∧
      reassignmentSwaps r.reassignments = swaps ∧
      (BulkDeactivateTeamMembers repo cache teamName userIDs).applyCall
        = some (swaps, targets ++ swaps.map (fun s => s.newUserId)) := by
  obtain ⟨targets, team, swaps, reass, replIDs, poolF, hnorm, hteam, hens, hplan,
    happly, hr, hcall⟩ := bulk_ok_anatomy repo cache teamName userIDs r hok
  have hids : ((Storage.FindOpenPullRequestsByReviewers repo targets).map
      (fun pr => pr.pullRequestId)).Nodup :=
    ((FindOpen_sublist repo targets).map (fun pr => pr.pullRequestId)).nodup hwf.1
  obtain ⟨hrepl, hflat, _, _⟩ := planLoop_ok targets
    (Storage.FindOpenPullRequestsByReviewers repo targets)
    (newReviewerPool (collectReplacementCandidates team.members targets))
    swaps reass replIDs poolF
    (newReviewerPool_WF (collectReplacementCandidates team.members targets))
    hids hplan
  refine ⟨targets, swaps, hnorm, by rw [hr], by rw [hr]; exact hflat, ?_⟩
  rw [hcall, hrepl]

/-- C6 witness: concrete single-target run in team T replacing X by Z on
the lone open PR; the persistence call receives the targets plus the drawn
replacement, and the result reports the (X, Z) swap. -/
theorem C6_bulk_deactivation_payload_witness :
    RepoWF ⟨["T"], [⟨"X", "x", true, some "T"⟩, ⟨"Y", "y", true, some "T"⟩,
      ⟨"Z", "z", true, some "T"⟩],
      [⟨["X", "Y"], "A", some 0, none, "P2", "p2", .OPEN⟩]⟩ ∧
    ∃ targets swaps,
      normalizeTargetUserIDs ["X"] = .ok targets ∧
      (⟨"T", ["X"], [⟨"P2", [⟨"X", "Z"⟩]⟩]⟩ :
        TeamBulkDeactivateResult).deactivated = targets ∧
      reassignmentSwaps (⟨"T", ["X"], [⟨"P2", [⟨"X", "Z"⟩]⟩]⟩ :
        TeamBulkDeactivateResult).reassignments = swaps ∧
      (BulkDeactivateTeamMembers
        ⟨["T"], [⟨"X", "x", true, some "T"⟩, ⟨"Y", "y", true, some "T"⟩,
          ⟨"Z", "z", true, some "T"⟩],
         [⟨["X", "Y"], "A", some 0, none, "P2", "p2", .OPEN⟩]⟩
        [] "T" ["X"]).applyCall
        = some (swaps, targets ++ swaps.map (fun s => s.newUserId)) :=
  ⟨by decide,
   C6_bulk_deactivation_payload
     ⟨["T"], [⟨"X", "x", true, some "T"⟩, ⟨"Y", "y", true, some "T"⟩,
       ⟨"Z", "z", true, some "T"⟩],
      [⟨["X", "Y"], "A", some 0, none, "P2", "p2", .OPEN⟩]⟩
     [] "T" ["X"] ⟨"T", ["X"], [⟨"P2", [⟨"X", "Z"⟩]⟩]⟩
     (by decide) (by decide)⟩

/-- C10: when no open pull request has any normalized target among its
reviewers, bulk deactivation still succeeds: the persistence call is
invoked with an empty swap list and exactly the normalized targets, the
store keeps every PR untouched and only deactivates the targets, and the
returned result has an empty reassignment list. -/
theorem C10_bulk_without_affected_prs (repo : RepoState) (cache : List User)
    (teamName : String) (userIDs : List String)
    (targets : List String) (team : Team)
    (h1 : trimSpace teamName ≠ "")
    (hnorm : normalizeTargetUserIDs userIDs = .ok targets)
    (hteam : UserManager.GetTeam (some repo) cache (trimSpace teamName) = .ok team)
    (hens : ensureTargetsInTeam targets team.members = .ok ())
    (hnone : ∀ pr ∈ repo.prs, pr.status = .OPEN →
      ∀ t ∈ targets, t ∉ pr.assignedReviewers) :
    BulkDeactivateTeamMembers repo cache teamName userIDs
      = ⟨.ok ⟨trimSpace teamName, targets, []⟩,
         { repo with users := deactivateUsers repo.users targets },
         UserManager.SyncUsersActivity cache targets false,
         some ([], targets)⟩ := by
  have hne : ¬ userIDs.isEmpty = true := by
    intro hh
    rcases userIDs with _ | ⟨x, xs⟩
    · exact normalizeTargetUserIDs_nil targets hnorm
    · simp at hh
  have htne : targets ≠ [] := normalizeTargetUserIDs_ok_ne_nil userIDs targets hnorm
  have hfo : Storage.FindOpenPullRequestsByReviewers repo targets = [] := by
    unfold Storage.FindOpenPullRequestsByReviewers
    apply List.filter_eq_nil_iff.mpr
    intro pr hpr
    simp only [Bool.and_eq_true, beq_iff_eq, List.any_eq_true, Bool.not_eq_true]
    rintro ⟨hopen, r, hrmem, hrb⟩
    simp only [Bool.and_eq_true, decide_eq_true_eq, List.contains_iff_exists_mem_beq,
      List.any_eq_true] at hrb
    obtain ⟨hrne, t, htmem, htb⟩ := hrb
    have : r = t := by simpa using htb
    subst this
    exact hnone pr hpr hopen r htmem hrmem
  have hplan : planBulkReviewerSwaps repo targets targets
      (newReviewerPool (collectReplacementCandidates team.members targets))
      = .ok ([], [], [],
        newReviewerPool (collectReplacementCandidates team.members targets)) := by
    unfold planBulkReviewerSwaps
    rw [hfo]
    rfl
  have htail : targets ++ ([] : List String) = targets := List.append_nil targets
  have happly : Storage.ApplyBulkTeamReviewerSwaps repo [] (targets ++ [])
      = .ok { repo with users := deactivateUsers repo.users targets } := by
    unfold Storage.ApplyBulkTeamReviewerSwaps
    rw [htail]
    rw [if_neg (by simp [htne]), if_neg (by simp)]
    have hprs : applyReviewerSwaps repo.prs [] = repo.prs := rfl
    rw [hprs]
  have hlen : (targets ++ ([] : List String)).length > 0 := by
    rw [htail]
    rcases targets with _ | ⟨t, ts⟩
    · exact absurd rfl htne
    · simp
  simp only [BulkDeactivateTeamMembers, hnorm, hteam, hens, hplan, happly]
  rw [if_neg h1, if_neg hne, if_pos hlen, htail]

/-- C10 witness: deactivating Z (who reviews nothing) in team T with one
open PR reviewed by X and Y; the persistence call gets no swaps and just
the target Z, and the result reports no reassignments. -/
theorem C10_bulk_without_affected_prs_witness :
    trimSpace "T" ≠ "" ∧
    BulkDeactivateTeamMembers
      ⟨["T"], [⟨"X", "x", true, some "T"⟩, ⟨"Y", "y", true, some "T"⟩,
        ⟨"Z", "z", true, some "T"⟩],
       [⟨["X", "Y"], "A", some 0, none, "P2", "p2", .OPEN⟩]⟩
      [] "T" [" Z "]
      = ⟨.ok ⟨"T", ["Z"], []⟩,
         { (⟨["T"], [⟨"X", "x", true, some "T"⟩, ⟨"Y", "y", true, some "T"⟩,
             ⟨"Z", "z", true, some "T"⟩],
            [⟨["X", "Y"], "A", some 0, none, "P2", "p2", .OPEN⟩]⟩ : RepoState)
           with users := deactivateUsers [⟨"X", "x", true, some "T"⟩,
             ⟨"Y", "y", true, some "T"⟩, ⟨"Z", "z", true, some "T"⟩] ["Z"] },
         UserManager.SyncUsersActivity [] ["Z"] false,
         some ([], ["Z"])⟩ :=
  ⟨by decide,
   C10_bulk_without_affected_prs
     ⟨["T"], [⟨"X", "x", true, some "T"⟩, ⟨"Y", "y", true, some "T"⟩,
       ⟨"Z", "z", true, some "T"⟩],
      [⟨["X", "Y"], "A", some 0, none, "P2", "p2", .OPEN⟩]⟩
     [] "T" [" Z "] ["Z"]
     ⟨[⟨true, "X", "x"⟩, ⟨true, "Y", "y"⟩, ⟨true, "Z", "z"⟩], "T"⟩
     (by decide) (by decide) (by decide) (by decide) (by decide)⟩

/-! C1: the reviewer-set invariant across all mutating operations. -/

theorem assignRewiersLoop_sub (teamId : String) :
    ∀ (users : List User) (counter : Nat) (x : String),
    x ∈ assignRewiersLoop teamId users counter →
      x ∈ users.map (fun u => u.userId) := by
  intro users
  induction users with
  | nil => intro counter x h; simp [assignRewiersLoop] at h
  | cons user rest ih =>
    intro counter x h
    simp only [assignRewiersLoop] at h
    by_cases hm : user.teamName = teamId ∧ user.isActive = true
    · rw [if_pos hm] at h
      by_cases hc : counter + 1 = 2
      · rw [if_pos hc] at h
        rw [List.mem_singleton] at h
        subst h
        simp
      · rw [if_neg hc] at h
        rcases List.mem_cons.mp h with hh | hh
        · subst hh; simp
        · simpa using Or.inr (ih (counter + 1) x hh)
    · rw [if_neg hm] at h
      simpa using Or.inr (ih counter x h)

theorem assignRewiersLoop_nodup (teamId : String) :
    ∀ (users : List User) (counter : Nat),
    (users.map (fun u => u.userId)).Nodup →
    (assignRewiersLoop teamId users counter).Nodup := by
  intro users
  induction users with
  | nil => intro counter _; simp [assignRewiersLoop]
  | cons user rest ih =>
    intro counter hnd
    rw [List.map_cons] at hnd
    obtain ⟨hhead, hrest⟩ := List.nodup_cons.mp hnd
    simp only [assignRewiersLoop]
    by_cases hm : user.teamName = teamId ∧ user.isActive = true
    · rw [if_pos hm]
      by_cases hc : counter + 1 = 2
      · rw [if_pos hc]; simp
      · rw [if_neg hc]
        refine List.nodup_cons.mpr ⟨?_, ih (counter + 1) hrest⟩
        intro hmem
        exact hhead (assignRewiersLoop_sub teamId rest (counter + 1) user.userId hmem)
    · rw [if_neg hm]
      exact ih counter hrest

theorem assignRewiersLoop_length (teamId : String) :
    ∀ (users : List User) (counter : Nat), counter < 2 →
    (assignRewiersLoop teamId users counter).length + counter ≤ 2 := by
  intro users
  induction users with
  | nil => intro counter h; simpa [assignRewiersLoop] using Nat.le_of_lt h
  | cons user rest ih =>
    intro counter hc2
    simp only [assignRewiersLoop]
    by_cases hm : user.teamName = teamId ∧ user.isActive = true
    · rw [if_pos hm]
      by_cases hc : counter + 1 = 2
      · rw [if_pos hc]
        simp only [List.length_singleton]
        omega
      · rw [if_neg hc]
        have := ih (counter + 1) (by omega)
        simp only [List.length_cons]
        omega
    · rw [if_neg hm]
      exact ih counter hc2

theorem AssignRewiers_invariant (cache : List User) (teamId : String)
    (hwf : CacheWF cache) :
    (UserManager.AssignRewiers cache teamId).length ≤ 2 ∧
    (UserManager.AssignRewiers cache teamId).Nodup := by
  unfold UserManager.AssignRewiers
  constructor
  · have := assignRewiersLoop_length teamId cache 0 (by omega)
    omega
  · exact assignRewiersLoop_nodup teamId cache 0 hwf

theorem cacheUpsert_WF (cache : List User) (u : User) (hwf : CacheWF cache) :
    CacheWF (cacheUpsert cache u) := by
  have hwf' : (cache.map (fun v => v.userId)).Nodup := hwf
  unfold CacheWF cacheUpsert
  rw [List.map_append]
  apply List.Nodup.append
  · exact ((List.filter_sublist cache).map (fun v => v.userId)).nodup hwf'
  · simp
  · intro x hx hy
    rw [List.map_singleton, List.mem_singleton] at hy
    subst hy
    obtain ⟨q, hq, hqid⟩ := List.mem_map.mp hx
    have hpred := (List.mem_filter.mp hq).2
    simp only [decide_eq_true_eq] at hpred
    exact hpred hqid

theorem GetUserTeam_ok_WF (repoSt : Option RepoState) (cache : List User)
    (userID t : String) (cache' : List User)
    (h : UserManager.GetUserTeam repoSt cache userID = .ok (t, cache'))
    (hwf : CacheWF cache) : CacheWF cache' := by
  unfold UserManager.GetUserTeam at h
  rcases hf : cache.find? (fun u => u.userId == userID) with _ | u
  · rw [hf] at h
    cases repoSt with
    | none => simp at h
    | some st =>
      have h1 : (match Storage.GetUser st userID with
          | Except.error e => if e.isNotFound = true then Except.error (DomainError.notFound "user") else Except.error e
          | Except.ok user => Except.ok (user.teamName, cacheUpsert cache user)) = Except.ok (t, cache') := h
      rcases hg : Storage.GetUser st userID with e | user
      · rw [hg] at h1
        have h2 : (if e.isNotFound = true then (Except.error (DomainError.notFound "user") : Except DomainError (String × List User)) else Except.error e) = Except.ok (t, cache') := h1
        by_cases hnf : e.isNotFound = true
        · rw [if_pos hnf] at h2; exact absurd h2 (by simp)
        · rw [if_neg hnf] at h2; exact absurd h2 (by simp)
      · rw [hg] at h1
        have h2 : (Except.ok (user.teamName, cacheUpsert cache user) : Except DomainError (String × List User)) = Except.ok (t, cache') := h1
        have h3 := (Prod.mk.injEq _ _ _ _).mp (Except.ok.inj h2)
        rw [← h3.2]
        exact cacheUpsert_WF cache user hwf
  · rw [hf] at h
    have h2 : (Except.ok (u.teamName, cache) : Except DomainError (String × List User)) = Except.ok (t, cache') := h
    have h3 := (Prod.mk.injEq _ _ _ _).mp (Except.ok.inj h2)
    rw [← h3.2]
    exact hwf

theorem SavePullRequest_ok_WF (st : RepoState) (pr : PullRequest)
    (st' : RepoState) (hwf : RepoWF st)
    (h : Storage.SavePullRequest st pr = .ok st') : RepoWF st' := by
  unfold Storage.SavePullRequest at h
  by_cases hlen : pr.assignedReviewers.length > 2
  · rw [if_pos hlen] at h; simp at h
  · rw [if_neg hlen] at h
    simp only [Except.ok.injEq] at h
    subst h
    constructor
    · show ((upsertPR st.prs _).map (fun q => q.pullRequestId)).Nodup
      unfold upsertPR
      rw [List.map_append]
      apply List.Nodup.append
      · exact ((List.filter_sublist st.prs).map (fun q => q.pullRequestId)).nodup hwf.1
      · simp
      · intro x hx hy
        rw [List.map_singleton, List.mem_singleton] at hy
        subst hy
        obtain ⟨q, hq, hqid⟩ := List.mem_map.mp hx
        have hpred := (List.mem_filter.mp hq).2
        simp only [decide_eq_true_eq] at hpred
        exact hpred hqid
    · intro q hq
      unfold upsertPR at hq
      rcases List.mem_append.mp hq with hh | hh
      · exact hwf.2 q ((List.filter_sublist st.prs).subset hh)
      · rw [List.mem_singleton] at hh
        subst hh
        refine ⟨insertReviewersLoop_nodup _ _, ?_, ?_⟩
        · have := insertReviewersLoop_length pr.assignedReviewers []
          simp only
          omega
        · intro hmem
          exact (insertReviewersLoop_mem _ [] "" hmem).2.1 rfl

theorem StoredPR_inv {pr : PullRequest} (h : StoredPR pr) :
    ReviewersInvariant pr :=
  ⟨h.2.1, h.1⟩

theorem CreatePullRequest_ok_invariant (repo : RepoState) (cache : List User)
    (now : Nat) (reqData : PostPullRequestCreateJSONBody) (pr : PullRequest)
    (hwfr : RepoWF repo) (hwfc : CacheWF cache)
    (hok : (CreatePullRequest repo cache now reqData).res = .ok pr) :
    ReviewersInvariant pr ∧
    RepoWF (CreatePullRequest repo cache now reqData).repo := by
  rcases hteam : UserManager.GetUserTeam (some repo) cache
      (convertReqToModel now reqData).authorId with e | tc
  · exfalso
    simp only [CreatePullRequest, hteam] at hok
    simp at hok
  obtain ⟨teamID, cache'⟩ := tc
  have hwfc' : CacheWF cache' :=
    GetUserTeam_ok_WF (some repo) cache (convertReqToModel now reqData).authorId
      teamID cache' hteam hwfc
  rcases hsave : Storage.SavePullRequest repo
      { convertReqToModel now reqData with
        assignedReviewers := UserManager.AssignRewiers cache' teamID }
      with e | repo'
  · exfalso
    simp only [CreatePullRequest, hteam, hsave] at hok
    simp at hok
  have hM : CreatePullRequest repo cache now reqData
      = ⟨.ok { convertReqToModel now reqData with
               assignedReviewers := UserManager.AssignRewiers cache' teamID },
         repo', cache', [(UserManager.AssignRewiers cache' teamID, false)]⟩ := by
    simp only [CreatePullRequest, hteam, hsave]
  rw [hM] at hok ⊢
  simp only [Except.ok.injEq] at hok
  subst hok
  obtain ⟨hlen, hnd⟩ := AssignRewiers_invariant cache' teamID hwfc'
  exact ⟨⟨hlen, hnd⟩, SavePullRequest_ok_WF repo _ repo' hwfr hsave⟩

theorem Merge_ok_invariant (repo : RepoState) (now : Nat) (prId : String)
    (pr : PullRequest) (hwf : RepoWF repo)
    (hok : (Merge repo now prId).res = .ok pr) :
    ReviewersInvariant pr ∧ RepoWF (Merge repo now prId).repo := by
  rcases hget : Storage.GetPullRequest repo prId with e | pr₀
  · exfalso
    simp only [Merge, hget] at hok
    by_cases hnf : e.isNotFound = true
    · rw [if_pos hnf] at hok; simp at hok
    · rw [if_neg hnf] at hok; simp at hok
  obtain ⟨hmem, hid⟩ := GetPullRequest_ok_mem repo prId pr₀ hget
  obtain ⟨hnd, hlen, hne⟩ := hwf.2 pr₀ hmem
  by_cases hst : pr₀.status = .MERGED
  · have hM : Merge repo now prId = ⟨.ok pr₀, repo, none, []⟩ := by
      simp only [Merge, hget]
      rw [if_pos hst]
    rw [hM] at hok ⊢
    simp only [Except.ok.injEq] at hok
    subst hok
    exact ⟨⟨hlen, hnd⟩, hwf⟩
  · have hM := merge_open_eq repo prId now pr₀ hwf hget hst
    rw [hM] at hok ⊢
    simp only [Except.ok.injEq] at hok
    subst hok
    have hins : insertReviewersLoop (mergeStamp pr₀ now).assignedReviewers []
        = (mergeStamp pr₀ now).assignedReviewers :=
      insertReviewersLoop_id _ [] hnd hne (by simp)
    have hsave : Storage.SavePullRequest repo (mergeStamp pr₀ now)
        = .ok { repo with prs := upsertPR repo.prs (mergeStamp pr₀ now) } := by
      unfold Storage.SavePullRequest
      rw [if_neg (by simp only [mergeStamp]; omega)]
      rw [hins]
    exact ⟨⟨hlen, hnd⟩, SavePullRequest_ok_WF repo _ _ hwf hsave⟩

theorem Reassign_ok_invariant (repo : RepoState) (cache : List User)
    (oldUserId prId : String) (resp : ReassignResponse) (hwf : RepoWF repo)
    (hok : (Reassign repo cache oldUserId prId).res = .ok resp) :
    ReviewersInvariant resp.pr ∧
    RepoWF (Reassign repo cache oldUserId prId).repo := by
  rcases hget : Storage.GetPullRequest repo prId with e | pr
  · exfalso
    simp only [Reassign, hget] at hok
    by_cases hnf : e.isNotFound = true
    · rw [if_pos hnf] at hok; simp at hok
    · rw [if_neg hnf] at hok; simp at hok
  by_cases hst : pr.status = .MERGED
  · exfalso
    simp only [Reassign, hget] at hok
    rw [if_pos hst] at hok
    simp at hok
  by_cases hass : oldUserId ∈ pr.assignedReviewers
  case neg =>
    exfalso
    simp only [Reassign, hget] at hok
    rw [if_neg hst, if_pos hass] at hok
    simp at hok
  rcases hteam : UserManager.GetUserTeam (some repo) cache oldUserId with e | tc
  · exfalso
    simp only [Reassign, hget, hteam] at hok
    rw [if_neg hst, if_neg (by simpa using hass)] at hok
    simp at hok
  obtain ⟨teamName, cache'⟩ := tc
  rcases hfind : UserManager.FindReplacementReviewer cache' teamName
      (pr.assignedReviewers ++ [oldUserId]) with e | newId
  · exfalso
    simp only [Reassign, hget, hteam, hfind] at hok
    rw [if_neg hst, if_neg (by simpa using hass)] at hok
    by_cases hnc : e.isNoCandidate = true
    · rw [if_pos hnc] at hok; simp at hok
    · rw [if_neg hnc] at hok; simp at hok
  rcases hsave : Storage.SavePullRequest repo
      { pr with assignedReviewers :=
          (pr.assignedReviewers.filter (fun r => r ≠ oldUserId)) ++ [newId] }
      with e | repo'
  · exfalso
    simp only [Reassign, hget, hteam, hfind, hsave] at hok
    rw [if_neg hst, if_neg (by simpa using hass)] at hok
    simp at hok
  have hM : Reassign repo cache oldUserId prId
      = ⟨.ok (ReassignResponse.mk
          ({ pr with assignedReviewers :=
            (pr.assignedReviewers.filter (fun r => r ≠ oldUserId)) ++ [newId] })
          newId), repo', cache',
         [([oldUserId], true), ([newId], false)]⟩ := by
    simp only [Reassign, hget, hteam, hfind, hsave]
    rw [if_neg hst, if_neg (by simpa using hass)]
  rw [hM] at hok ⊢
  simp only [Except.ok.injEq] at hok
  subst hok
  obtain ⟨hmem, _⟩ := GetPullRequest_ok_mem repo prId pr hget
  obtain ⟨hnd, hlen, hne⟩ := hwf.2 pr hmem
  obtain ⟨hexcl, _⟩ := FindReplacementReviewer_ok cache' teamName
    (pr.assignedReviewers ++ [oldUserId]) newId hfind
  have hnewrevs : newId ∉ pr.assignedReviewers := by
    intro hh; exact hexcl (List.mem_append.mpr (Or.inl hh))
  refine ⟨⟨?_, ?_⟩, SavePullRequest_ok_WF repo _ repo' hwf hsave⟩
  · simp only [List.length_append, List.length_singleton]
    have := length_filter_ne_of_mem oldUserId pr.assignedReviewers hnd hass
    omega
  · apply List.Nodup.append (hnd.filter _) (by simp)
    intro x hx hy
    rw [List.mem_singleton] at hy
    subst hy
    exact hnewrevs (mem_filter_ne.mp hx).1

theorem Bulk_ok_prs_invariant (repo : RepoState) (cache : List User)
    (teamName : String) (userIDs : List String)
    (r : TeamBulkDeactivateResult) (hwf : RepoWF repo)
    (hok : (BulkDeactivateTeamMembers repo cache teamName userIDs).res = .ok r) :
    ∀ q ∈ (BulkDeactivateTeamMembers repo cache teamName userIDs).repo.prs,
      ReviewersInvariant q := by
  obtain ⟨targets, team, swaps, reass, replIDs, poolF, hnorm, hteam, hens,
    hplan, happly, hres, hcall⟩ :=
    bulk_ok_anatomy repo cache teamName userIDs r hok
  unfold Storage.ApplyBulkTeamReviewerSwaps at happly
  by_cases hempty : (swaps.isEmpty && (targets ++ replIDs).isEmpty) = true
  · rw [if_pos hempty] at happly
    simp only [Except.ok.injEq] at happly
    intro q hq
    rw [← happly] at hq
    exact StoredPR_inv (hwf.2 q hq)
  · rw [if_neg hempty] at happly
    by_cases hbad : (swaps.any (fun s =>
        s.pullRequestId = "" || s.oldUserId = "" || s.newUserId = "")) = true
    · rw [if_pos hbad] at happly
      simp at happly
    · rw [if_neg hbad] at happly
      simp only [Except.ok.injEq] at happly
      intro q hq
      rw [← happly] at hq
      have hq' : q ∈ applyReviewerSwaps repo.prs swaps := hq
      rw [applyReviewerSwaps_eq_map] at hq'
      obtain ⟨p, hp, hpq⟩ := List.mem_map.mp hq'
      obtain ⟨hpnd, hplen, hpne⟩ := hwf.2 p hp
      have hsub : (Storage.FindOpenPullRequestsByReviewers repo targets).Sublist
          repo.prs := FindOpen_sublist repo targets
      have hidsnd : ((Storage.FindOpenPullRequestsByReviewers repo targets).map
          (fun pr => pr.pullRequestId)).Nodup := (hsub.map _).nodup hwf.1
      have hplan' : planLoop targets
          (Storage.FindOpenPullRequestsByReviewers repo targets)
          (newReviewerPool (collectReplacementCandidates team.members targets))
          = .ok (swaps, reass, replIDs, poolF) := hplan
      obtain ⟨hrepl, hflat, hprid, hok4⟩ := planLoop_ok targets
        (Storage.FindOpenPullRequestsByReviewers repo targets)
        (newReviewerPool (collectReplacementCandidates team.members targets))
        swaps reass replIDs poolF
        (newReviewerPool_WF (collectReplacementCandidates team.members targets))
        hidsnd hplan'
      subst hpq
      by_cases hpin : p ∈ Storage.FindOpenPullRequestsByReviewers repo targets
      · obtain ⟨holdnd, holdmem, hnewnd, hnewfacts⟩ := hok4 p hpin hpnd
        obtain ⟨hfnd, hflen, _⟩ := foldSwaps_invariant
          (SwapsFor p.pullRequestId swaps) p.assignedReviewers hpnd holdnd
          hnewnd holdmem (fun s hs => (hnewfacts s hs).1)
        have hflen' : (applySwapsToReviewers p.assignedReviewers
            (SwapsFor p.pullRequestId swaps)).length
            = p.assignedReviewers.length := hflen
        have hfnd' : (applySwapsToReviewers p.assignedReviewers
            (SwapsFor p.pullRequestId swaps)).Nodup := hfnd
        exact ⟨by rw [hflen']; exact hplen, hfnd'⟩
      · have hnone : SwapsFor p.pullRequestId swaps = [] := by
          rw [SwapsFor, List.filter_eq_nil_iff]
          intro s hs
          simp only [decide_eq_true_eq]
          intro heq
          obtain ⟨q₀, hq₀, hq₀id⟩ := hprid s hs
          have hpq₀ : p = q₀ := by
            apply List.inj_on_of_nodup_map hwf.1 hp (hsub.subset hq₀)
            rw [← heq, hq₀id]
          rw [hpq₀] at hpin
          exact hpin hq₀
        have hsame : applySwapsToReviewers p.assignedReviewers
            (SwapsFor p.pullRequestId swaps) = p.assignedReviewers := by
          rw [hnone]
          rfl
        exact ⟨by rw [hsame]; exact hplen, by rw [hsame]; exact hpnd⟩

/-- C1: the reviewer-set invariant.  Starting from a wellformed store
(pull-request ids unique, every stored reviewer list deduplicated, of size
at most two and free of empty ids) and a wellformed directory cache, every
pull request produced by a successful create, merge, reassign or
bulk-deactivation call — both the value returned to the caller and every
pull request held by the store the system is left with — has at most two
assigned reviewers and no duplicate reviewer id. -/
theorem C1_reviewer_set_invariant (repo : RepoState) (cache : List User)
    (now : Nat) (hwfr : RepoWF repo) (hwfc : CacheWF cache) :
    (∀ reqData pr, (CreatePullRequest repo cache now reqData).res = .ok pr →
      ReviewersInvariant pr ∧
      ∀ q ∈ (CreatePullRequest repo cache now reqData).repo.prs,
        ReviewersInvariant q) ∧
    (∀ prId pr, (Merge repo now prId).res = .ok pr →
      ReviewersInvariant pr ∧
      ∀ q ∈ (Merge repo now prId).repo.prs, ReviewersInvariant q) ∧
    (∀ oldUserId prId resp,
      (Reassign repo cache oldUserId prId).res = .ok resp →
      ReviewersInvariant resp.pr ∧
      ∀ q ∈ (Reassign repo cache oldUserId prId).repo.prs,
        ReviewersInvariant q) ∧
    (∀ teamName userIDs r,
      (BulkDeactivateTeamMembers repo cache teamName userIDs).res = .ok r →
      ∀ q ∈ (BulkDeactivateTeamMembers repo cache teamName userIDs).repo.prs,
        ReviewersInvariant q) := by
  refine ⟨?_, ?_, ?_, ?_⟩
  · intro reqData pr hok
    obtain ⟨hres, hrepo⟩ :=
      CreatePullRequest_ok_invariant repo cache now reqData pr hwfr hwfc hok
    exact ⟨hres, fun q hq => StoredPR_inv (hrepo.2 q hq)⟩
  · intro prId pr hok
    obtain ⟨hres, hrepo⟩ := Merge_ok_invariant repo now prId pr hwfr hok
    exact ⟨hres, fun q hq => StoredPR_inv (hrepo.2 q hq)⟩
  · intro oldUserId prId resp hok
    obtain ⟨hres, hrepo⟩ :=
      Reassign_ok_invariant repo cache oldUserId prId resp hwfr hok
    exact ⟨hres, fun q hq => StoredPR_inv (hrepo.2 q hq)⟩
  · intro teamName userIDs r hok
    exact Bulk_ok_prs_invariant repo cache teamName userIDs r hwfr hok

/-- C1 witness: a wellformed three-member team; creating a pull request for
author A assigns the two first active members and the resulting PR
satisfies the reviewer-set invariant. -/
theorem C1_reviewer_set_invariant_witness :
    RepoWF ⟨["T"], [⟨"A", "a", true, some "T"⟩, ⟨"X", "x", true, some "T"⟩,
      ⟨"Y", "y", true, some "T"⟩], []⟩ ∧
    CacheWF [⟨true, "T", "A", "a"⟩, ⟨true, "T", "X", "x"⟩,
      ⟨true, "T", "Y", "y"⟩] ∧
    (CreatePullRequest ⟨["T"], [⟨"A", "a", true, some "T"⟩,
        ⟨"X", "x", true, some "T"⟩, ⟨"Y", "y", true, some "T"⟩], []⟩
      [⟨true, "T", "A", "a"⟩, ⟨true, "T", "X", "x"⟩, ⟨true, "T", "Y", "y"⟩]
      7 ⟨"A", "PR9", "nine"⟩).res
      = .ok ⟨["A", "X"], "A", some 7, none, "PR9", "nine", .OPEN⟩ ∧
    ReviewersInvariant ⟨["A", "X"], "A", some 7, none, "PR9", "nine", .OPEN⟩ :=
  ⟨by decide, by decide, by decide,
   ((C1_reviewer_set_invariant ⟨["T"], [⟨"A", "a", true, some "T"⟩,
        ⟨"X", "x", true, some "T"⟩, ⟨"Y", "y", true, some "T"⟩], []⟩
      [⟨true, "T", "A", "a"⟩, ⟨true, "T", "X", "x"⟩, ⟨true, "T", "Y", "y"⟩]
      7 (by decide) (by decide)).1
     ⟨"A", "PR9", "nine"⟩ ⟨["A", "X"], "A", some 7, none, "PR9", "nine", .OPEN⟩
     (by decide)).1⟩

/-! C9: team creation / retrieval round trip. -/

theorem addTeamValidate_none :
    ∀ (members : List TeamMember) (seen : List String),
    (members.map (fun m => m.userId)).Nodup →
    (∀ m ∈ members, m.userId ≠ "") →
    (∀ m ∈ members, m.userId ∉ seen) →
    addTeamValidate members seen = none := by
  intro members
  induction members with
  | nil => intro seen _ _ _; rfl
  | cons m rest ih =>
    intro seen hnd hne hseen
    rw [List.map_cons] at hnd
    obtain ⟨hhead, hrest⟩ := List.nodup_cons.mp hnd
    simp only [addTeamValidate]
    rw [if_neg (hne m (List.mem_cons_self _ _))]
    rw [if_neg (hseen m (List.mem_cons_self _ _))]
    apply ih (m.userId :: seen) hrest
    · intro m' hm'
      exact hne m' (List.mem_cons_of_mem _ hm')
    · intro m' hm'
      intro hc
      rcases List.mem_cons.mp hc with hc | hc
      · exact hhead (hc ▸ List.mem_map_of_mem _ hm')
      · exact hseen m' (List.mem_cons_of_mem _ hm') hc

theorem foldl_cacheUpsert_fresh :
    ∀ (news base : List User),
    (news.map (fun u => u.userId)).Nodup →
    (∀ u ∈ base, ∀ v ∈ news, u.userId ≠ v.userId) →
    news.foldl cacheUpsert base = base ++ news := by
  intro news
  induction news with
  | nil => intro base _ _; simp
  | cons n rest ih =>
    intro base hnd hfresh
    rw [List.map_cons] at hnd
    obtain ⟨hhead, hrest⟩ := List.nodup_cons.mp hnd
    have hstep : cacheUpsert base n = base ++ [n] := by
      unfold cacheUpsert
      congr 1
      apply List.filter_eq_self.mpr
      intro a ha
      simpa using hfresh a ha n (List.mem_cons_self _ _)
    have hfresh' : ∀ u ∈ base ++ [n], ∀ v ∈ rest, u.userId ≠ v.userId := by
      intro u hu v hv
      rcases List.mem_append.mp hu with hb | hb
      · exact hfresh u hb v (List.mem_cons_of_mem _ hv)
      · rw [List.mem_singleton] at hb
        subst hb
        intro heq
        exact hhead (by rw [heq]; exact List.mem_map_of_mem _ hv)
    rw [List.foldl_cons, hstep, ih (base ++ [n]) hrest hfresh']
    simp

theorem foldl_upsertDbUser_fresh :
    ∀ (news base : List DbUser),
    (news.map (fun u => u.userId)).Nodup →
    (∀ u ∈ base, ∀ v ∈ news, u.userId ≠ v.userId) →
    news.foldl upsertDbUser base = base ++ news := by
  intro news
  induction news with
  | nil => intro base _ _; simp
  | cons n rest ih =>
    intro base hnd hfresh
    rw [List.map_cons] at hnd
    obtain ⟨hhead, hrest⟩ := List.nodup_cons.mp hnd
    have hstep : upsertDbUser base n = base ++ [n] := by
      unfold upsertDbUser
      congr 1
      apply List.filter_eq_self.mpr
      intro a ha
      simpa using hfresh a ha n (List.mem_cons_self _ _)
    have hfresh' : ∀ u ∈ base ++ [n], ∀ v ∈ rest, u.userId ≠ v.userId := by
      intro u hu v hv
      rcases List.mem_append.mp hu with hb | hb
      · exact hfresh u hb v (List.mem_cons_of_mem _ hv)
      · rw [List.mem_singleton] at hb
        subst hb
        intro heq
        exact hhead (by rw [heq]; exact List.mem_map_of_mem _ hv)
    rw [List.foldl_cons, hstep, ih (base ++ [n]) hrest hfresh']
    simp

theorem foldl_upsert_dbUserOfUser :
    ∀ (news : List User) (base : List DbUser),
    news.foldl (fun acc u => upsertDbUser acc (dbUserOfUser u)) base
      = (news.map dbUserOfUser).foldl upsertDbUser base := by
  intro news
  induction news with
  | nil => intro base; rfl
  | cons n rest ih =>
    intro base
    rw [List.foldl_cons, List.map_cons, List.foldl_cons, ih]

/-- The users-table rows AddTeam writes for one team payload: its members
converted to users of the team, then to table rows. -/
def teamRows (team : Team) : List DbUser :=
  (team.members.map (fun m => ConvertTmToUser m team.teamName)).map dbUserOfUser

/-- C9, counterexample: a team payload with zero members is accepted by
AddTeam (its validation only rejects empty or duplicate ids), but the
cache-fallback read — the path taken by a manager with no repository —
answers NotFound instead of the empty member set, so the round trip does
not hold "regardless of whether the read is served from store or cache
fallback". -/
theorem C9_counterexample :
    UserManager.AddTeam none [] (⟨[], "ghost"⟩ : Team) = .ok ([], none) ∧
    UserManager.GetTeam none [] "ghost" = .error (.notFound "team") := by
  decide

/-- C9 (amended): for a valid team payload with distinct non-empty member
ids, AT LEAST ONE member, a non-empty team name, and a store and cache not
already holding the team or its members, AddTeam succeeds and a subsequent
GetTeam on the team name returns exactly the original members — both when
the read is served by the store and when it is served by the cache-fallback
reconstruction (no store attached).  Without the non-empty-members
hypothesis the cache-fallback leg fails, as the counterexample shows. -/
theorem C9_add_team_round_trip (st : RepoState) (cache : List User)
    (team : Team)
    (hids : (team.members.map (fun m => m.userId)).Nodup)
    (hne : ∀ m ∈ team.members, m.userId ≠ "")
    (htn : team.teamName ≠ "")
    (hteamfresh : team.teamName ∉ st.teams)
    (hrowfresh : ∀ u ∈ st.users, u.teamName ≠ some team.teamName)
    (hrowkeys : ∀ u ∈ st.users, ∀ m ∈ team.members, u.userId ≠ m.userId)
    (hcachefresh : ∀ c ∈ cache, c.teamName ≠ team.teamName)
    (hcachekeys : ∀ c ∈ cache, ∀ m ∈ team.members, c.userId ≠ m.userId)
    (hmem : team.members ≠ []) :
    (∃ st', UserManager.AddTeam (some st) cache team
        = .ok (cache ++ team.members.map (fun m => ConvertTmToUser m team.teamName),
               some st') ∧
      UserManager.GetTeam (some st')
        (cache ++ team.members.map (fun m => ConvertTmToUser m team.teamName))
        team.teamName = .ok ⟨team.members, team.teamName⟩) ∧
    (UserManager.AddTeam none cache team
        = .ok (cache ++ team.members.map (fun m => ConvertTmToUser m team.teamName),
               none) ∧
      UserManager.GetTeam none
        (cache ++ team.members.map (fun m => ConvertTmToUser m team.teamName))
        team.teamName = .ok ⟨team.members, team.teamName⟩) := by
  have hval : addTeamValidate team.members [] = none :=
    addTeamValidate_none team.members [] hids hne (by intro m _; simp)
  have husersnd : ((team.members.map (fun m => ConvertTmToUser m team.teamName)).map
      (fun u => u.userId)).Nodup := by
    rw [List.map_map]
    exact hids
  have hcachefold : (team.members.map (fun m => ConvertTmToUser m team.teamName)).foldl
      cacheUpsert cache
      = cache ++ team.members.map (fun m => ConvertTmToUser m team.teamName) := by
    apply foldl_cacheUpsert_fresh _ _ husersnd
    intro u hu v hv
    obtain ⟨m, hm, hmv⟩ := List.mem_map.mp hv
    have hvid : v.userId = m.userId := by rw [← hmv]; rfl
    rw [hvid]
    exact hcachekeys u hu m hm
  have hAddNone : UserManager.AddTeam none cache team
      = .ok (cache ++ team.members.map (fun m => ConvertTmToUser m team.teamName),
             none) := by
    simp only [UserManager.AddTeam, hval]
    rw [hcachefold]
  have hmm : (team.members.map (fun m => ConvertTmToUser m team.teamName)).map
      ConvertUserToTeamMember = team.members := by
    rw [List.map_map]
    exact List.map_id'' (fun m => rfl) team.members
  have hGetNone : UserManager.GetTeam none
      (cache ++ team.members.map (fun m => ConvertTmToUser m team.teamName))
      team.teamName = .ok ⟨team.members, team.teamName⟩ := by
    show UserManager.getTeamFromCache _ team.teamName = _
    simp only [UserManager.getTeamFromCache]
    rw [List.filter_append]
    have hbase : cache.filter (fun u => decide (u.teamName = team.teamName)) = [] := by
      apply List.filter_eq_nil_iff.mpr
      intro u hu
      simpa using hcachefresh u hu
    have hnews : (team.members.map (fun m => ConvertTmToUser m team.teamName)).filter
        (fun u => decide (u.teamName = team.teamName))
        = team.members.map (fun m => ConvertTmToUser m team.teamName) := by
      apply List.filter_eq_self.mpr
      intro u hu
      obtain ⟨m, hm, hmv⟩ := List.mem_map.mp hu
      subst hmv
      simp [ConvertTmToUser]
    rw [hbase, hnews, List.nil_append, hmm]
    rw [if_neg (by simp [hmem])]
  have hfold2 : (team.members.map (fun m => ConvertTmToUser m team.teamName)).foldl
      (fun acc u => upsertDbUser acc (dbUserOfUser u)) st.users
      = st.users ++ teamRows team := by
    rw [foldl_upsert_dbUserOfUser]
    unfold teamRows
    apply foldl_upsertDbUser_fresh
    · rw [List.map_map, List.map_map]
      exact hids
    · intro u hu v hv
      obtain ⟨w, hw, hwv⟩ := List.mem_map.mp hv
      obtain ⟨m, hm, hmw⟩ := List.mem_map.mp hw
      have hvid : v.userId = m.userId := by rw [← hwv, ← hmw]; rfl
      rw [hvid]
      exact hrowkeys u hu m hm
  have hcreate : Storage.CreateTeamWithMembers st team
      (team.members.map (fun m => ConvertTmToUser m team.teamName))
      = .ok { st with teams := st.teams ++ [team.teamName],
                      users := st.users ++ teamRows team } := by
    unfold Storage.CreateTeamWithMembers
    rw [if_neg (by simp [hteamfresh])]
    rw [hfold2]
  have hAddSome : UserManager.AddTeam (some st) cache team
      = .ok (cache ++ team.members.map (fun m => ConvertTmToUser m team.teamName),
             some { st with teams := st.teams ++ [team.teamName],
                            users := st.users ++ teamRows team }) := by
    simp only [UserManager.AddTeam, hval, hcreate]
    rw [hcachefold]
  have hbaserows : st.users.filter (fun u => u.teamName == some team.teamName) = [] := by
    apply List.filter_eq_nil_iff.mpr
    intro u hu
    simp [hrowfresh u hu]
  have hnewsrows : (teamRows team).filter (fun u => u.teamName == some team.teamName)
      = teamRows team := by
    apply List.filter_eq_self.mpr
    intro u hu
    simp only [teamRows, List.map_map] at hu
    obtain ⟨m, hm, hmu⟩ := List.mem_map.mp hu
    subst hmu
    simp [dbUserOfUser, ConvertTmToUser, htn]
  have hrows : Storage.GetAllUsersInTeam
      { st with teams := st.teams ++ [team.teamName],
                users := st.users ++ teamRows team } team.teamName = teamRows team := by
    show (st.users ++ teamRows team).filter
        (fun u => u.teamName == some team.teamName) = teamRows team
    rw [List.filter_append, hbaserows, hnewsrows, List.nil_append]
  have hmm2 : (teamRows team).map convertRowToTeamMember = team.members := by
    simp only [teamRows, List.map_map]
    exact List.map_id'' (fun m => rfl) team.members
  have hGetStore : Storage.GetTeam
      { st with teams := st.teams ++ [team.teamName],
                users := st.users ++ teamRows team } team.teamName
      = .ok ⟨team.members, team.teamName⟩ := by
    unfold Storage.GetTeam
    rw [if_pos (by simp)]
    rw [hrows, hmm2]
  refine ⟨⟨_, hAddSome, ?_⟩, hAddNone, hGetNone⟩
  simp only [UserManager.GetTeam, hGetStore]

/-- C9 witness: a one-member team "T" added against an empty store and an
empty cache; both the store-served read and the cache-fallback read return
exactly that member. -/
theorem C9_add_team_round_trip_witness :
    (([⟨true, "M", "m"⟩] : List TeamMember).map (fun m => m.userId)).Nodup ∧
    ([⟨true, "M", "m"⟩] : List TeamMember) ≠ [] ∧
    ((∃ st', UserManager.AddTeam (some ⟨[], [], []⟩) []
          (⟨[⟨true, "M", "m"⟩], "T"⟩ : Team)
          = .ok ([⟨true, "T", "M", "m"⟩], some st') ∧
        UserManager.GetTeam (some st') [⟨true, "T", "M", "m"⟩] "T"
          = .ok ⟨[⟨true, "M", "m"⟩], "T"⟩) ∧
      (UserManager.AddTeam none [] (⟨[⟨true, "M", "m"⟩], "T"⟩ : Team)
          = .ok ([⟨true, "T", "M", "m"⟩], none) ∧
        UserManager.GetTeam none [⟨true, "T", "M", "m"⟩] "T"
          = .ok ⟨[⟨true, "M", "m"⟩], "T"⟩)) :=
  ⟨by decide, by decide,
   C9_add_team_round_trip ⟨[], [], []⟩ [] ⟨[⟨true, "M", "m"⟩], "T"⟩
     (by decide) (by decide) (by decide) (by decide) (by decide) (by decide)
     (by decide) (by decide) (by decide)⟩

end PRManager
